import Mathlib

/-!
Verification development for the utcp-mcp bridge.

Shallow embedding of the core logic of the repository:
* `simple-utcp-client-mcp.py` — `EmbeddingInMemRepo` (the in-memory tool
  catalog with embedding and tag indexes) and `ToolSelector.search_tools`
  (the hybrid search fusion);
* `src/server.py` — `replace_providers` (full provider-list replacement);
* `src/utcp_proxy_mcp.py` — `UTCPProxy.add_provider` (reconciler delta) and
  `UTCPProxy._create_tool_proxy` (dynamic proxy synthesis).

External collaborators (the embedding model, the transport, the agent
runtime) are modelled as explicit parameters: the embedding outcomes of a
`save_provider_with_tools` call are passed in as data, and the resolved tool
list of a provider registration is passed in as data.  Python `float`
arithmetic (numpy cosine similarity) is represented symbolically: a score is
either `nan` (numpy 0/0, which arises exactly when a norm is zero, because a
dot product against a zero vector is zero) or the exact pair
(dot product, squared product of norms) standing for dot / sqrt(prodSq).
Python dicts are modelled as insertion-ordered association lists with
update-in-place semantics; Python sets of strings as `Finset String`.
-/

/-! ## Python dict / list primitives -/

/-- Python `d.get(k)` / `d[k]` read on an insertion-ordered dict. -/
def dlookup {α : Type} (d : List (String × α)) (k : String) : Option α :=
  (d.find? (fun p => p.1 == k)).map (·.2)

/-- Python `k in d`. -/
def dcontains {α : Type} (d : List (String × α)) (k : String) : Bool :=
  d.any (fun p => p.1 == k)

/-- Python `d[k] = v`: update in place if the key exists, else append. -/
def dinsert {α : Type} (d : List (String × α)) (k : String) (v : α) :
    List (String × α) :=
  if d.any (fun p => p.1 == k) then
    d.map (fun p => if p.1 == k then (k, v) else p)
  else d ++ [(k, v)]

/-- Python `d.pop(k, None)`: drop every entry with the key. -/
def dpop {α : Type} (d : List (String × α)) (k : String) : List (String × α) :=
  d.filter (fun p => ¬ p.1 == k)

/-- Stable insertion step: place `x` before the first element it dominates. -/
def stableInsert {α : Type} (ge : α → α → Bool) (x : α) : List α → List α
  | [] => [x]
  | y :: ys => if ge x y then x :: y :: ys else y :: stableInsert ge x ys

/-- Stable sort putting dominant elements first; with `ge a b` true on ties
this reproduces Python's stable `list.sort(key=…, reverse=True)`, whose
output is determined uniquely by stability. -/
def stableSort {α : Type} (ge : α → α → Bool) : List α → List α
  | [] => []
  | x :: xs => stableInsert ge x (stableSort ge xs)

/-! ## Data model (`EmbeddingInMemRepo`) -/

abbrev Vec := List ℚ

/-- A UTCP tool as the repository sees it: composite name, description, tags.
Pydantic model equality is field-wise, matching derived `DecidableEq`. -/
structure Tool where
  name : String
  description : String
  tags : List String
deriving DecidableEq, Repr

/-- A provider; only its name matters to the repository logic. -/
structure Provider where
  name : String
deriving DecidableEq, Repr

/-- State of `EmbeddingInMemRepo`: flat tool list, provider map, embedding
index, tag cache. -/
structure Repo where
  tools : List Tool
  tool_per_provider : List (String × Provider × List Tool)
  tool_embeddings : List (String × Vec)
  all_tags : Finset String
deriving DecidableEq

def emptyRepo : Repo := ⟨[], [], [], ∅⟩

def namesOf (ts : List Tool) : List String := ts.map (·.name)

/-- Tag-cache rebuild loop (`for tool in self.tools: self._all_tags.update(tool.tags)`). -/
def rebuildTags (ts : List Tool) : Finset String :=
  ts.foldl (fun acc t => acc ∪ t.tags.toFinset) ∅

/-- Tool list currently recorded for a provider (empty if absent). -/
def providerTools (r : Repo) (pname : String) : List Tool :=
  ((dlookup r.tool_per_provider pname).map (·.2)).getD []

/-- `remove_provider` body, assuming the provider is present. -/
def remove_provider_core (r : Repo) (pname : String) : Repo :=
  let tools_to_remove := providerTools r pname
  { tools := r.tools.filter (fun t => ¬ tools_to_remove.contains t)
    tool_per_provider := dpop r.tool_per_provider pname
    tool_embeddings :=
      tools_to_remove.foldl (fun d t => dpop d t.name) r.tool_embeddings
    all_tags := rebuildTags (r.tools.filter (fun t => ¬ tools_to_remove.contains t)) }

/-- `EmbeddingInMemRepo.remove_provider`: raises `ValueError` when the
provider is unknown, otherwise removes its tools from the flat list (by
value), its embeddings, its map entry, and rebuilds the tag cache. -/
def remove_provider (r : Repo) (pname : String) : Except String Repo :=
  if dcontains r.tool_per_provider pname then
    Except.ok (remove_provider_core r pname)
  else
    Except.error "Provider not found"

/-- Result of the embedding collaborator during one save:
`batch res` — `embed_batch` returned, one vector per zipped tool (an empty
vector marks a failed batch item and is not stored);
`fallback res` — `embed_batch` raised and each tool was embedded
individually, `none` marking a tool whose individual `embed` call raised
(for such a tool the code also skips its tag-cache update). -/
inductive EmbedOutcome where
  | batch (res : List Vec)
  | fallback (res : List (Option Vec))
deriving DecidableEq, Repr

/-- The embedding/tag loop of `save_provider_with_tools` (lines 142-163). -/
def saveEmbedStep (r : Repo) (ts : List Tool) : EmbedOutcome → Repo
  | EmbedOutcome.batch res =>
      (ts.zip res).foldl
        (fun acc p =>
          { acc with
            tool_embeddings :=
              if p.2 ≠ [] then dinsert acc.tool_embeddings p.1.name p.2
              else acc.tool_embeddings
            all_tags := acc.all_tags ∪ p.1.tags.toFinset })
        r
  | EmbedOutcome.fallback res =>
      (ts.zip res).foldl
        (fun acc p =>
          match p.2 with
          | some e =>
              { acc with
                tool_embeddings := dinsert acc.tool_embeddings p.1.name e
                all_tags := acc.all_tags ∪ p.1.tags.toFinset }
          | none => acc)
        r

/-- Lines 137-138 of `save_provider_with_tools`: remove the provider first
when its name is already registered. -/
def removeIfPresent (r : Repo) (pname : String) : Repo :=
  if dcontains r.tool_per_provider pname then remove_provider_core r pname
  else r

/-- `EmbeddingInMemRepo.save_provider_with_tools`: remove an existing
provider of the same name, run the embedding/tag loop, extend the flat tool
list, record the provider mapping. -/
def save_provider_with_tools (r : Repo) (p : Provider) (ts : List Tool)
    (out : EmbedOutcome) : Repo :=
  let r2 := saveEmbedStep (removeIfPresent r p.name) ts out
  { r2 with
    tools := r2.tools ++ ts
    tool_per_provider := dinsert r2.tool_per_provider p.name (p, ts) }

/-- Python `s.split(".")`, via the character list so that it reduces in the
kernel; agrees with `String.splitOn "."` (singleton separator, and Python's
`"".split(".") = [""]` likewise). -/
def pySplitDot (s : String) : List String :=
  (s.toList.splitOnP (fun c => c = '.')).map (fun l => String.mk l)

/-- `EmbeddingInMemRepo.remove_tool`. -/
def remove_tool (r : Repo) (tool_name : String) : Except String Repo :=
  let provider_name := ((pySplitDot tool_name).headD "")
  if ¬ dcontains r.tool_per_provider provider_name then
    Except.error "Provider not found"
  else
    let new_tools := r.tools.filter (fun t => ¬ t.name == tool_name)
    if new_tools.length = r.tools.length then
      Except.error "Tool not found"
    else
      match dlookup r.tool_per_provider provider_name with
      | some pr =>
          Except.ok
            { tools := new_tools
              tool_embeddings := dpop r.tool_embeddings tool_name
              tool_per_provider :=
                dinsert r.tool_per_provider provider_name
                  (pr.1, pr.2.filter (fun t => ¬ t.name == tool_name))
              all_tags := rebuildTags new_tools }
      | none => Except.error "Provider not found"

example :
    (save_provider_with_tools emptyRepo ⟨"a"⟩ [⟨"a.x", "d", ["t"]⟩]
      (EmbedOutcome.batch [[1]])).tools = [⟨"a.x", "d", ["t"]⟩] := by decide

example :
    (save_provider_with_tools emptyRepo ⟨"a"⟩ [⟨"a.x", "d", ["t"]⟩]
      (EmbedOutcome.batch [[1]])).all_tags = {"t"} := by decide

/-! ## Embedding search (`_cosine_similarity`, `search_by_embedding`) -/

/-- `np.dot` of two equal-length vectors (zip truncates; numpy would raise
on a length mismatch, a case no claim exercises). -/
def dotP (v1 v2 : Vec) : ℚ := ((v1.zip v2).map (fun p => p.1 * p.2)).sum

/-- Squared `np.linalg.norm`. -/
def normSq (v : Vec) : ℚ := dotP v v

/-- Exact representation of a numpy float similarity: `nan` for 0/0 (both
norms' product zero forces the dot product to be zero as well, since a
zero-norm float vector is the zero vector), otherwise the pair
`(num, denSq)` standing for the real number num / sqrt denSq. -/
inductive Score where
  | nan : Score
  | val (num : ℚ) (denSq : ℚ) : Score
deriving DecidableEq, Repr

/-- `_cosine_similarity`: `dot_product / (norm_v1 * norm_v2)`, performed
unconditionally; a zero norm product yields numpy nan, never a skip. -/
def cosine_similarity (v1 v2 : Vec) : Score :=
  if normSq v1 * normSq v2 = 0 then Score.nan
  else Score.val (dotP v1 v2) (normSq v1 * normSq v2)

/-- Strict `<` on scores as IEEE floats compare: any comparison against nan
is false; `n1/sqrt d1 < n2/sqrt d2` decided exactly by sign analysis and
squaring (the `denSq` components are positive whenever `val` is built by
`cosine_similarity`). -/
def Score.ltB : Score → Score → Bool
  | _, Score.nan => false
  | Score.nan, _ => false
  | Score.val n1 d1, Score.val n2 d2 =>
      if n1 < 0 then
        if 0 ≤ n2 then true else decide (n2 ^ 2 * d1 < n1 ^ 2 * d2)
      else
        if n2 ≤ 0 then false else decide (n1 ^ 2 * d2 < n2 ^ 2 * d1)

/-- The candidate loop of `search_by_embedding` (lines 322-328): every tool
of the flat list that has an entry in the embedding index is scored. -/
def embeddingCandidates (r : Repo) (query_embedding : Vec) :
    List (Tool × Score) :=
  r.tools.filterMap (fun t =>
    (dlookup r.tool_embeddings t.name).map
      (fun e => (t, cosine_similarity query_embedding e)))

/-- `EmbeddingInMemRepo.search_by_embedding`: score, stable-sort by
similarity descending, truncate to `top_k`. -/
def search_by_embedding (r : Repo) (query_embedding : Vec) (top_k : Nat) :
    List (Tool × Score) :=
  (stableSort (fun a b => ! Score.ltB a.2 b.2)
    (embeddingCandidates r query_embedding)).take top_k

/-! ## Tag search (`search_by_tags`) -/

/-- The effective tag set of a tool (lines 370-373): declared tags plus the
full name plus `name.split(".")[0]` plus `name.split(".")[1]`; the last
access raises `IndexError` (modelled as `none`) when the name has no dot. -/
def effective_tags (t : Tool) : Option (Finset String) :=
  match pySplitDot t.name with
  | p0 :: p1 :: _ => some (t.tags.toFinset ∪ {t.name, p0, p1})
  | _ => none

/-- One iteration of the `search_by_tags` loop: outer `none` is the
`IndexError`, inner `none` means the tool was filtered out (no matching
tag); the score is `(len(matching)/len(tags) + len(matching)/(len(eff)+1))/2`
with `len(tags)` the query list length. -/
def scoreByTags (tags : List String) (t : Tool) : Option (Option (Tool × ℚ)) :=
  match effective_tags t with
  | none => none
  | some eff =>
      let matching := tags.toFinset ∩ eff
      if matching = ∅ then some none
      else
        some (some (t,
          ((matching.card : ℚ) / (tags.length : ℚ)
            + (matching.card : ℚ) / ((eff.card : ℚ) + 1)) / 2))

/-- The accumulation loop of `search_by_tags` over the flat tool list. -/
def collectByTags (tags : List String) : List Tool →
    Option (List (Tool × ℚ))
  | [] => some []
  | t :: ts =>
      match scoreByTags tags t with
      | none => none
      | some o => (collectByTags tags ts).map (fun rest => o.toList ++ rest)

/-- `EmbeddingInMemRepo.search_by_tags`: score every tool, drop the
non-matching ones, stable-sort by score descending, truncate to `top_k`;
`none` models the `IndexError` raised on a tool name without a dot. -/
def search_by_tags (r : Repo) (tags : List String) (top_k : Nat) :
    Option (List (Tool × ℚ)) :=
  (collectByTags tags r.tools).map
    (fun results => (stableSort (fun a b => decide (b.2 ≤ a.2)) results).take top_k)

example :
    (search_by_tags
      ⟨[⟨"w.f", "d", ["weather"]⟩], [], [], ∅⟩ ["weather"] 5).isSome := by decide

example :
    search_by_tags ⟨[⟨"nodot", "d", ["weather"]⟩], [], [], ∅⟩ ["weather"] 5
      = none := by decide

example :
    (search_by_embedding
      ⟨[⟨"a.x", "d", []⟩], [], [("a.x", [1])], ∅⟩ [0] 5).map (fun p => p.1)
      = [⟨"a.x", "d", []⟩] := by
  simp [search_by_embedding, embeddingCandidates, dlookup, List.find?,
    cosine_similarity, stableSort, stableInsert]

/-! ## Hybrid search fusion (`ToolSelector.search_tools`, lines 432-450)

The two collaborator searches (the library tag-search strategy and
`search_by_embedding`) produce `tag_tools` and `embedding_results`; the
fusion loops are modelled exactly. -/

/-- First fusion loop: append each tag tool whose name is unseen. -/
def addTagTools : List Tool → List Tool → List String → List Tool × List String
  | [], sel, names => (sel, names)
  | t :: ts, sel, names =>
      if t.name ∈ names then addTagTools ts sel names
      else addTagTools ts (sel ++ [t]) (names ++ [t.name])

/-- Second fusion loop: before looking at each embedding result, break as
soon as `len(selected_tools) >= limit`; then append if the name is unseen. -/
def addEmbeddingTools (limit : Int) :
    List (Tool × Score) → List Tool → List String → List Tool
  | [], sel, _ => sel
  | p :: rest, sel, names =>
      if (sel.length : Int) ≥ limit then sel
      else if p.1.name ∈ names then addEmbeddingTools limit rest sel names
      else addEmbeddingTools limit rest (sel ++ [p.1]) (names ++ [p.1.name])

/-- The fused, deduplicated result of `ToolSelector.search_tools`, given the
two ranked collaborator result lists and the caller's `limit`. -/
def search_tools_fuse (tag_tools : List Tool)
    (embedding_results : List (Tool × Score)) (limit : Int) : List Tool :=
  let s := addTagTools tag_tools [] []
  addEmbeddingTools limit embedding_results s.1 s.2

/-- The tag tools deduplicated by name in ranked order — the state of
`selected_tools` after the first fusion loop. -/
def dedupByName (ts : List Tool) : List Tool := (addTagTools ts [] []).1

/-! ## `server.py` `replace_providers` (lines 231-274) -/

/-- A provider descriptor as the HTTP layer sees it: a JSON object with a
`name`, an optional `provider_type` discriminator, and a flag recording
whether `model_validate` of its declared class accepts it. -/
structure PDesc where
  name : String
  provider_type : Option String
  valid : Bool
deriving DecidableEq, Repr

/-- The `provider_classes` discriminator table of `server.py`. -/
def provider_classes : List String :=
  ["http", "cli", "sse", "http_stream", "websocket", "grpc", "graphql",
   "tcp", "udp", "webrtc", "mcp", "text"]

/-- One collaborator call issued by the reconciler to the UTCP clients. -/
inductive Call where
  | removeP (name : String)
  | addP (name : String)
deriving DecidableEq, Repr

/-- Server-side state: the persisted `providers.json` list and the provider
descriptors currently registered with the UTCP clients. -/
structure ServerState where
  persisted : List PDesc
  registered : List PDesc
deriving DecidableEq, Repr

/-- The validation loop of `replace_providers`: first descriptor whose type
is missing/unknown or whose `model_validate` fails raises `HTTPException`
before any mutation. -/
def validateAll : List PDesc → Except String (List PDesc)
  | [] => Except.ok []
  | d :: ds =>
      match d.provider_type with
      | none => Except.error "Unsupported provider_type"
      | some pt =>
          if pt ∈ provider_classes then
            if d.valid then (validateAll ds).map (fun v => d :: v)
            else Except.error "Invalid provider data"
          else Except.error "Unsupported provider_type"

/-- `replace_providers`: returns the HTTP outcome (new state and the
`changed` flag, or the error) together with the trace of collaborator
calls that were performed. The unchanged check is Python list equality of
the raw payloads and runs before validation. -/
def replace_providers (s : ServerState) (new_providers : List PDesc) :
    Except String (ServerState × Bool) × List Call :=
  if s.persisted = new_providers then (Except.ok (s, false), [])
  else
    match validateAll new_providers with
    | Except.error e => (Except.error e, [])
    | Except.ok validated =>
        (Except.ok ({ persisted := new_providers, registered := validated }, true),
          s.registered.map (fun d => Call.removeP d.name)
            ++ validated.map (fun d => Call.addP d.name))

/-! ## Proxy synthesis (`UTCPProxy._create_tool_proxy`, lines 49-95) -/

/-- A tool as the proxy layer sees it: name, description, input schema of
ordered property names with a required subset. -/
structure ToolInputs where
  properties : List String
  required : List String
deriving DecidableEq, Repr

structure PTool where
  name : String
  description : String
  inputs : ToolInputs
deriving DecidableEq, Repr

/-- `keyword.kwlist` of Python 3. -/
def python_keywords : List String :=
  ["False", "None", "True", "and", "as", "assert", "async", "await",
   "break", "class", "continue", "def", "del", "elif", "else", "except",
   "finally", "for", "from", "global", "if",
   "import", "in", "is", "lambda", "nonlocal", "not", "or", "pass",
   "raise", "return", "try", "while", "with", "yield"]

/-- `orig_name[:-2] if orig_name.endswith('[]') else orig_name`, via the
character list so that it reduces in the kernel. -/
def stripArraySuffix (s : String) : String :=
  let cs := s.toList
  if 2 ≤ cs.length ∧ cs.drop (cs.length - 2) = ['[', ']'] then
    String.mk (cs.take (cs.length - 2))
  else s

/-- The externally visible Python parameter name of a schema property:
array suffix stripped, then an underscore appended if it is a keyword. -/
def pyParamName (s : String) : String :=
  let p := stripArraySuffix s
  if p ∈ python_keywords then p ++ "_" else p

def isPyIdentStart (c : Char) : Bool := c.isAlpha || c == '_'

def isPyIdentChar (c : Char) : Bool := c.isAlphanum || c == '_'

/-- Whether a string is a plain (ASCII) Python identifier, as the names
generated into the `async def` must be for its `exec` to parse. Python's
`str.isidentifier` additionally admits Unicode XID letters, which no input
in scope uses; keywords need no exclusion here because `pyParamName` has
already renamed them. -/
def isPyIdent (s : String) : Bool :=
  match s.toList with
  | [] => false
  | c :: cs => isPyIdentStart c && cs.all isPyIdentChar

/-- Whether a string can sit inside the single-quoted Python string
literal the proxy source interpolates it into (`call_tool('…', args)`): a
quote (39), backslash (92) or line break (10, 13) would derail the
generated source and make `exec` raise. Original property names need no
separate check: when every visible parameter name is an identifier they
consist of identifier characters plus an optional `[]` suffix. -/
def pyStrLitSafe (s : String) : Bool :=
  s.toList.all (fun c =>
    ¬ (c.toNat = 39 ∨ c.toNat = 92 ∨ c.toNat = 10 ∨ c.toNat = 13))

/-- Whether a property lands in `required_params`
(`py_name in required or orig_name in required`). -/
def isRequiredProp (req : List String) (o : String) : Bool :=
  decide (stripArraySuffix o ∈ req) || decide (o ∈ req)

/-- The synthesized proxy: its Python signature (required parameter names
then optional parameter names) and the `param_map` dict from visible
parameter name to original schema property name, plus the forwarded tool
name. -/
structure ProxySig where
  required_params : List String
  optional_params : List String
  param_map : List (String × String)
  tool_name : String
deriving DecidableEq, Repr

/-- `UTCPProxy._create_tool_proxy`: builds the parameter lists and
`param_map`; the `exec` of the generated `async def` raises `SyntaxError`
when a visible parameter name is not a valid identifier, when the tool
name breaks the generated string literal, or when two properties collapse
to the same visible parameter name (duplicate argument) — tokenisation and
parse failures surface before the duplicate-argument check. The model
returns each as an error. -/
def create_tool_proxy (t : PTool) : Except String ProxySig :=
  let props := t.inputs.properties
  let req := t.inputs.required
  let reqP := (props.filter (fun o => isRequiredProp req o)).map pyParamName
  let optP := (props.filter (fun o => ¬ isRequiredProp req o)).map pyParamName
  if (reqP ++ optP).all isPyIdent then
    if pyStrLitSafe t.name then
      if (reqP ++ optP).Nodup then
        Except.ok
          { required_params := reqP
            optional_params := optP
            param_map :=
              props.foldl (fun d o => dinsert d (pyParamName o) o) []
            tool_name := t.name }
      else Except.error "duplicate argument in function definition"
    else Except.error "invalid syntax"
  else Except.error "invalid syntax"

def namesOfP (ts : List PTool) : List String := ts.map (·.name)

def isOkE {ε α : Type} : Except ε α → Bool
  | Except.ok _ => true
  | Except.error _ => false

/-- The names for which `add_provider` will attempt a new MCP binding:
`new_tools - old_tools` on the name sets. -/
def toolsToAdd (old_tools new_tools : List PTool) : Finset String :=
  (namesOfP new_tools).toFinset \ (namesOfP old_tools).toFinset

/-- The tools that actually get a new proxy registered by the loop at lines
117-127: name in the delta and `_create_tool_proxy` did not raise (a raise
is caught, logged, and skips the tool). -/
def add_provider_registered (old_tools new_tools : List PTool) : List PTool :=
  new_tools.filter
    (fun t => decide (t.name ∈ toolsToAdd old_tools new_tools)
      && isOkE (create_tool_proxy t))

instance {ε α : Type} [DecidableEq ε] [DecidableEq α] :
    DecidableEq (Except ε α) := fun x y =>
  match x, y with
  | Except.ok a, Except.ok b =>
      if h : a = b then isTrue (by rw [h])
      else isFalse (fun he => h (Except.ok.inj he))
  | Except.ok _, Except.error _ => isFalse (fun he => Except.noConfusion he)
  | Except.error _, Except.ok _ => isFalse (fun he => Except.noConfusion he)
  | Except.error a, Except.error b =>
      if h : a = b then isTrue (by rw [h])
      else isFalse (fun he => h (Except.error.inj he))

example :
    create_tool_proxy ⟨"p.t", "", ⟨["x", "x[]"], []⟩⟩
      = Except.error "duplicate argument in function definition" := by decide

example :
    (create_tool_proxy ⟨"p.t", "", ⟨["class", "data"], ["class"]⟩⟩).map
        (fun s => s.required_params)
      = Except.ok ["class_"] := by decide

/-! ## Operation sequences on the catalog (for the structural invariant) -/

/-- A mutating catalog operation: register a provider (with the resolved
tools and the embedding collaborator's outcome) or deregister one. -/
inductive Op where
  | save (p : Provider) (ts : List Tool) (out : EmbedOutcome)
  | remove (pname : String)

/-- Execute one operation; a `remove` of an unknown provider raises before
touching any state, leaving the catalog unchanged. -/
def stepOp (r : Repo) : Op → Repo
  | Op.save p ts out => save_provider_with_tools r p ts out
  | Op.remove n =>
      match remove_provider r n with
      | Except.ok r' => r'
      | Except.error _ => r

def runOps (r : Repo) (ops : List Op) : Repo := ops.foldl stepOp r

/-- Freshness condition on a registration: the resolved tool names are
pairwise distinct and not owned by any *other* currently registered
provider. This is what resolving tools under their owning provider's
name prefix guarantees in practice. -/
def SaveOK (r : Repo) (pname : String) (ts : List Tool) : Prop :=
  (namesOf ts).Nodup ∧
    ∀ e ∈ r.tool_per_provider, e.1 ≠ pname →
      ∀ t ∈ e.2.2, t.name ∉ namesOf ts

instance (r : Repo) (pname : String) (ts : List Tool) :
    Decidable (SaveOK r pname ts) := by
  unfold SaveOK; infer_instance

/-- Precondition of a single operation in a given state: saves must be
fresh, removes are unconstrained. -/
def opPre (r : Repo) : Op → Prop
  | Op.save p ts _ => SaveOK r p.name ts
  | Op.remove _ => True

instance (r : Repo) : (op : Op) → Decidable (opPre r op)
  | Op.save p ts _ => (inferInstance : Decidable (SaveOK r p.name ts))
  | Op.remove _ => (inferInstance : Decidable True)

/-- Every save in the sequence is fresh for the state it executes in. -/
def WFOps : Repo → List Op → Prop
  | _, [] => True
  | r, op :: ops => opPre r op ∧ WFOps (stepOp r op) ops

instance : ∀ (r : Repo) (ops : List Op), Decidable (WFOps r ops)
  | _, [] => isTrue trivial
  | r, op :: ops =>
      have h2 : Decidable (WFOps (stepOp r op) ops) := instDecidableWFOps _ _
      by unfold WFOps; exact instDecidableAnd

/-- The flat-sequence/provider-union invariant claimed of the catalog: no
duplicate tool name in the flat sequence, and a name appears there iff it
appears in exactly one registered provider's tool list. -/
def C1Inv (r : Repo) : Prop :=
  (namesOf r.tools).Nodup ∧
    ∀ n : String,
      n ∈ namesOf r.tools ↔
        (r.tool_per_provider.filter
          (fun e => (namesOf e.2.2).contains n)).length = 1

/-- Strengthened structural invariant carried through the induction. -/
structure RepoInv (r : Repo) : Prop where
  keysNodup : (r.tool_per_provider.map (·.1)).Nodup
  flatNodup : (namesOf r.tools).Nodup
  joinNodup : ((r.tool_per_provider.map (fun e => namesOf e.2.2)).flatten).Nodup
  mem_iff : ∀ t : Tool, t ∈ r.tools ↔ ∃ e ∈ r.tool_per_provider, t ∈ e.2.2

/-! ## Association-list (Python dict) lemmas -/

theorem mem_dpop {α : Type} (d : List (String × α)) (k : String)
    (p : String × α) : p ∈ dpop d k ↔ p ∈ d ∧ p.1 ≠ k := by
  simp [dpop, List.mem_filter]

theorem dcontains_iff {α : Type} (d : List (String × α)) (k : String) :
    dcontains d k = true ↔ ∃ p ∈ d, p.1 = k := by
  simp [dcontains, List.any_eq_true]

theorem dcontains_dpop {α : Type} (d : List (String × α)) (k : String) :
    dcontains (dpop d k) k = false := by
  rw [Bool.eq_false_iff]
  intro h
  rcases (dcontains_iff _ _).1 h with ⟨p, hp, hk⟩
  exact ((mem_dpop d k p).1 hp).2 hk

theorem dinsert_not_contains {α : Type} {d : List (String × α)} {k : String}
    (v : α) (h : dcontains d k = false) : dinsert d k v = d ++ [(k, v)] := by
  unfold dinsert
  rw [show d.any (fun p => p.1 == k) = false from h]
  simp

theorem dlookup_mem {α : Type} {d : List (String × α)} {k : String} {v : α}
    (h : dlookup d k = some v) : (k, v) ∈ d := by
  unfold dlookup at h
  rcases Option.map_eq_some'.1 h with ⟨p, hp, hv⟩
  have h1 := List.find?_some hp
  have h2 := List.mem_of_find?_eq_some hp
  have : p.1 = k := by simpa using h1
  have : p = (k, v) := by
    cases p; simp_all
  rwa [this] at h2

theorem dlookup_eq_none {α : Type} {d : List (String × α)} {k : String} :
    dlookup d k = none ↔ ∀ p ∈ d, p.1 ≠ k := by
  unfold dlookup
  rw [Option.map_eq_none', List.find?_eq_none]
  simp

theorem dlookup_append_self {α : Type} {d : List (String × α)} {k : String}
    (v : α) (h : ∀ p ∈ d, p.1 ≠ k) :
    dlookup (d ++ [(k, v)]) k = some v := by
  induction d with
  | nil => simp [dlookup, List.find?]
  | cons p ps ih =>
      have hp : (p.1 == k) = false := by
        simpa using h p (List.mem_cons_self p ps)
      simp only [List.cons_append, dlookup, List.find?, hp]
      exact ih (fun q hq => h q (List.mem_cons_of_mem p hq))

theorem dlookup_of_not_mem_left {α : Type} {d d' : List (String × α)}
    {k : String} (h : ∀ p ∈ d, p.1 ≠ k) :
    dlookup (d ++ d') k = dlookup d' k := by
  induction d with
  | nil => simp
  | cons p ps ih =>
      have hp : (p.1 == k) = false := by
        simpa using h p (List.mem_cons_self p ps)
      simp only [List.cons_append, dlookup, List.find?, hp]
      exact ih (fun q hq => h q (List.mem_cons_of_mem p hq))

theorem dlookup_dpop_ne {α : Type} (d : List (String × α)) {k k' : String}
    (h : k ≠ k') : dlookup (dpop d k') k = dlookup d k := by
  induction d with
  | nil => rfl
  | cons p ps ih =>
      by_cases hk : p.1 = k'
      · have : (p.1 == k') = true := by simpa using hk
        have hne : (p.1 == k) = false := by
          simp only [beq_eq_false_iff_ne]; rw [hk]; exact fun hh => h hh.symm
        simp only [dpop, List.filter, this, Bool.not_true, dlookup, List.find?, hne]
        simpa [dpop, dlookup] using ih
      · have : (p.1 == k') = false := by simpa using hk
        simp only [dpop, List.filter, this, Bool.not_false, dlookup, List.find?]
        cases hpk : (p.1 == k) with
        | true => rfl
        | false => simpa [dpop, dlookup, hpk] using ih

theorem dlookup_dpop_self {α : Type} (d : List (String × α)) (k : String) :
    dlookup (dpop d k) k = none := by
  rw [dlookup_eq_none]
  exact fun p hp => ((mem_dpop d k p).1 hp).2

theorem dlookup_append {α : Type} (d d' : List (String × α)) (k : String) :
    dlookup (d ++ d') k =
      match dlookup d k with
      | some v => some v
      | none => dlookup d' k := by
  induction d with
  | nil => simp [dlookup]
  | cons p ps ih =>
      simp only [List.cons_append, dlookup, List.find?]
      cases p.1 == k with
      | true => rfl
      | false => exact ih

theorem dlookup_map_update {α : Type} (d : List (String × α))
    {k k' : String} (v : α) (h : k ≠ k') :
    dlookup (d.map (fun p => if p.1 == k' then (k', v) else p)) k
      = dlookup d k := by
  induction d with
  | nil => rfl
  | cons p ps ih =>
      simp only [List.map_cons]
      by_cases hk : p.1 = k'
      · have hb : (p.1 == k') = true := by simpa using hk
        have h1 : ((k' : String) == k) = false := by
          simp only [beq_eq_false_iff_ne]; exact fun hh => h hh.symm
        have h2 : (p.1 == k) = false := by
          simp only [beq_eq_false_iff_ne]; rw [hk]; exact fun hh => h hh.symm
        rw [hb]
        simp only [if_true, dlookup, List.find?, h1, h2]
        exact ih
      · rw [if_neg (by simpa using hk)]
        simp only [dlookup, List.find?]
        cases p.1 == k with
        | true => rfl
        | false => exact ih

theorem dlookup_dinsert_ne {α : Type} (d : List (String × α)) {k k' : String}
    (v : α) (h : k ≠ k') : dlookup (dinsert d k' v) k = dlookup d k := by
  unfold dinsert
  split
  · exact dlookup_map_update d v h
  · rw [dlookup_append]
    have hnone : dlookup [(k', v)] k = none := by
      rw [dlookup_eq_none]; intro p hp
      simp only [List.mem_singleton] at hp
      rw [hp]; exact fun hh => h hh.symm
    rw [hnone]
    cases dlookup d k <;> rfl

/-! ## Stable sort lemmas -/

theorem stableInsert_perm {α : Type} (ge : α → α → Bool) (x : α)
    (l : List α) : (stableInsert ge x l).Perm (x :: l) := by
  induction l with
  | nil => exact List.Perm.refl _
  | cons y ys ih =>
      unfold stableInsert
      split
      · exact List.Perm.refl _
      · exact (List.Perm.cons y ih).trans (List.Perm.swap x y ys)

theorem stableSort_perm {α : Type} (ge : α → α → Bool) (l : List α) :
    (stableSort ge l).Perm l := by
  induction l with
  | nil => exact List.Perm.refl _
  | cons x xs ih =>
      exact (stableInsert_perm ge x _).trans (List.Perm.cons x ih)

theorem mem_stableSort {α : Type} (ge : α → α → Bool) (l : List α) (a : α) :
    a ∈ stableSort ge l ↔ a ∈ l :=
  (stableSort_perm ge l).mem_iff

theorem pairwise_stableInsert {α : Type} {ge : α → α → Bool}
    (htot : ∀ a b, ge a b = true ∨ ge b a = true)
    (htrans : ∀ a b c, ge a b = true → ge b c = true → ge a c = true)
    (x : α) (l : List α) (h : l.Pairwise (fun a b => ge a b = true)) :
    (stableInsert ge x l).Pairwise (fun a b => ge a b = true) := by
  induction l with
  | nil => exact List.pairwise_singleton _ x
  | cons y ys ih =>
      rcases List.pairwise_cons.1 h with ⟨hy, hys⟩
      unfold stableInsert
      split
      · rename_i hxy
        refine List.pairwise_cons.2 ⟨?_, h⟩
        intro z hz
        rcases List.mem_cons.1 hz with hz | hz
        · rw [hz]; exact hxy
        · exact htrans x y z hxy (hy z hz)
      · rename_i hxy
        have hyx : ge y x = true := by
          rcases htot x y with hh | hh
          · exact absurd hh hxy
          · exact hh
        refine List.pairwise_cons.2 ⟨?_, ih hys⟩
        intro z hz
        rcases (stableInsert_perm ge x ys).mem_iff.1 hz with hz
        rcases List.mem_cons.1 hz with hz | hz
        · rw [hz]; exact hyx
        · exact hy z hz

theorem pairwise_stableSort {α : Type} (ge : α → α → Bool)
    (htot : ∀ a b, ge a b = true ∨ ge b a = true)
    (htrans : ∀ a b c, ge a b = true → ge b c = true → ge a c = true)
    (l : List α) :
    (stableSort ge l).Pairwise (fun a b => ge a b = true) := by
  induction l with
  | nil => exact List.Pairwise.nil
  | cons x xs ih => exact pairwise_stableInsert htot htrans x _ ih

/-! ## Preservation of the structural invariant -/

theorem sublist_flatten {α : Type} {L L' : List (List α)}
    (h : L.Sublist L') : L.flatten.Sublist L'.flatten := by
  induction h with
  | slnil => exact List.Sublist.refl _
  | cons l _ ih => exact ih.trans (List.sublist_append_right l _)
  | cons₂ l _ ih => exact List.Sublist.append (List.Sublist.refl l) ih

theorem keys_nodup_lookup {α : Type} {d : List (String × α)}
    (hd : (d.map (·.1)).Nodup) {e : String × α} (he : e ∈ d) :
    dlookup d e.1 = some e.2 := by
  induction d with
  | nil => cases he
  | cons p ps ih =>
      rcases List.mem_cons.1 he with he | he
      · rw [he]; simp [dlookup, List.find?]
      · have hne : (p.1 == e.1) = false := by
          rw [beq_eq_false_iff_ne]
          intro hh
          have : p.1 ∈ ps.map (·.1) := by
            rw [hh]; exact List.mem_map_of_mem _ he
          exact (List.nodup_cons.1 hd).1 this
        simp only [dlookup, List.find?, hne]
        exact ih (List.nodup_cons.1 hd).2 he

theorem keys_nodup_inj {α : Type} {d : List (String × α)}
    (hd : (d.map (·.1)).Nodup) {e e' : String × α} (he : e ∈ d)
    (he' : e' ∈ d) (hk : e.1 = e'.1) : e = e' := by
  have h1 := keys_nodup_lookup hd he
  have h2 := keys_nodup_lookup hd he'
  rw [hk] at h1
  rw [h1] at h2
  cases e; cases e'
  simp only at hk
  simp only [Option.some.injEq] at h2
  simp [hk, h2]

theorem dcontains_false_forall {α : Type} {d : List (String × α)}
    {k : String} (h : dcontains d k = false) : ∀ p ∈ d, p.1 ≠ k := by
  intro p hp hk
  rw [Bool.eq_false_iff] at h
  exact h ((dcontains_iff d k).2 ⟨p, hp, hk⟩)

theorem eq_singleton_of_forall {α : Type} {l : List α} {e : α}
    (hnd : l.Nodup) (hmem : e ∈ l) (hall : ∀ x ∈ l, x = e) : l = [e] := by
  cases l with
  | nil => cases hmem
  | cons x xs =>
      have hx : x = e := hall x (List.mem_cons_self x xs)
      cases xs with
      | nil => rw [hx]
      | cons y ys =>
          have hy : y = e := hall y (by simp)
          exfalso
          have : x ∈ y :: ys := by rw [hx, hy]; simp
          exact (List.nodup_cons.1 hnd).1 this

/-- The pairwise name-disjointness of provider entries, from the flattened
name list being duplicate-free. -/
theorem entries_disjoint {r : Repo} (hinv : RepoInv r)
    {e e' : String × Provider × List Tool}
    (he : e ∈ r.tool_per_provider) (he' : e' ∈ r.tool_per_provider)
    (hne : e ≠ e') {n : String} (hn : n ∈ namesOf e.2.2)
    (hn' : n ∈ namesOf e'.2.2) : False := by
  have hj := hinv.joinNodup
  rw [List.nodup_flatten] at hj
  have hpw := hj.2
  rw [List.pairwise_map] at hpw
  have hdisj := hpw.forall
    (fun a b (h : List.Disjoint _ _) => h.symm) he he' hne
  exact hdisj hn hn'

theorem mem_filter_not_contains (l rm : List Tool) (t : Tool) :
    t ∈ l.filter (fun t => ¬ rm.contains t) ↔ t ∈ l ∧ t ∉ rm := by
  simp [List.mem_filter]

theorem repoInv_empty : RepoInv emptyRepo := by
  constructor <;> simp [emptyRepo, namesOf]

theorem repoInv_remove_core {r : Repo} (hinv : RepoInv r) {n : String}
    (hc : dcontains r.tool_per_provider n = true) :
    RepoInv (remove_provider_core r n) := by
  rcases (dcontains_iff _ _).1 hc with ⟨e, he, hek⟩
  have hlook : dlookup r.tool_per_provider n = some e.2 := by
    have := keys_nodup_lookup hinv.keysNodup he
    rwa [hek] at this
  have hrm : providerTools r n = e.2.2 := by
    simp [providerTools, hlook]
  constructor
  · show ((dpop r.tool_per_provider n).map (·.1)).Nodup
    exact ((List.filter_sublist _).map _).nodup hinv.keysNodup
  · show (namesOf (r.tools.filter _)).Nodup
    exact ((List.filter_sublist _).map _).nodup hinv.flatNodup
  · show (((dpop r.tool_per_provider n).map _).flatten).Nodup
    exact (sublist_flatten ((List.filter_sublist _).map _)).nodup hinv.joinNodup
  · intro t
    show t ∈ r.tools.filter
        (fun t => ¬ (providerTools r n).contains t) ↔ _
    rw [hrm, mem_filter_not_contains]
    constructor
    · rintro ⟨ht, hrm2⟩
      rcases (hinv.mem_iff t).1 ht with ⟨e', he', hte'⟩
      refine ⟨e', (mem_dpop _ _ _).2 ⟨he', ?_⟩, hte'⟩
      intro hk'
      have : e' = e := keys_nodup_inj hinv.keysNodup he' he (by rw [hk', hek])
      rw [this] at hte'
      exact hrm2 hte'
    · rintro ⟨e', he', hte'⟩
      rcases (mem_dpop _ _ _).1 he' with ⟨he'mem, hk'⟩
      refine ⟨(hinv.mem_iff t).2 ⟨e', he'mem, hte'⟩, ?_⟩
      intro htr
      have hne : e' ≠ e := by
        intro hh; rw [hh] at hk'; exact hk' hek
      exact entries_disjoint hinv he'mem he hne
        (List.mem_map_of_mem _ hte') (List.mem_map_of_mem _ htr)

theorem repoInv_remove (r : Repo) (hinv : RepoInv r) (n : String) :
    RepoInv (stepOp r (Op.remove n)) := by
  show RepoInv (match remove_provider r n with
    | Except.ok r' => r' | Except.error _ => r)
  unfold remove_provider
  by_cases hc : dcontains r.tool_per_provider n = true
  · rw [if_pos hc]
    exact repoInv_remove_core hinv hc
  · rw [if_neg hc]
    exact hinv

/-! ## Projection lemmas for the save embedding loop -/

theorem saveEmbedStep_tools (r : Repo) (ts : List Tool)
    (out : EmbedOutcome) : (saveEmbedStep r ts out).tools = r.tools := by
  cases out with
  | batch res =>
      show (List.foldl _ r (ts.zip res)).tools = r.tools
      generalize ts.zip res = l
      induction l generalizing r with
      | nil => rfl
      | cons p l ih => exact ih _
  | fallback res =>
      show (List.foldl _ r (ts.zip res)).tools = r.tools
      generalize ts.zip res = l
      induction l generalizing r with
      | nil => rfl
      | cons p l ih =>
          rw [List.foldl_cons]
          cases p.2 with
          | some e => exact ih _
          | none => exact ih _

theorem saveEmbedStep_tpp (r : Repo) (ts : List Tool)
    (out : EmbedOutcome) :
    (saveEmbedStep r ts out).tool_per_provider = r.tool_per_provider := by
  cases out with
  | batch res =>
      show (List.foldl _ r (ts.zip res)).tool_per_provider = _
      generalize ts.zip res = l
      induction l generalizing r with
      | nil => rfl
      | cons p l ih => exact ih _
  | fallback res =>
      show (List.foldl _ r (ts.zip res)).tool_per_provider = _
      generalize ts.zip res = l
      induction l generalizing r with
      | nil => rfl
      | cons p l ih =>
          rw [List.foldl_cons]
          cases p.2 with
          | some e => exact ih _
          | none => exact ih _

theorem save_tools (r : Repo) (p : Provider) (ts : List Tool)
    (out : EmbedOutcome) :
    (save_provider_with_tools r p ts out).tools
      = (removeIfPresent r p.name).tools ++ ts := by
  show (saveEmbedStep (removeIfPresent r p.name) ts out).tools ++ ts = _
  rw [saveEmbedStep_tools]

theorem save_tpp (r : Repo) (p : Provider) (ts : List Tool)
    (out : EmbedOutcome) :
    (save_provider_with_tools r p ts out).tool_per_provider
      = (removeIfPresent r p.name).tool_per_provider
          ++ [(p.name, (p, ts))] := by
  show dinsert (saveEmbedStep (removeIfPresent r p.name) ts out).tool_per_provider
      p.name (p, ts) = _
  rw [saveEmbedStep_tpp]
  apply dinsert_not_contains
  unfold removeIfPresent
  split
  · exact dcontains_dpop _ _
  · rename_i hc
    exact Bool.not_eq_true _ ▸ (by simpa using hc)

/-! ## Preservation of the invariant by save -/

theorem removeIfPresent_inv {r : Repo} (hinv : RepoInv r) (pname : String) :
    RepoInv (removeIfPresent r pname) := by
  unfold removeIfPresent
  split
  · rename_i hc; exact repoInv_remove_core hinv hc
  · exact hinv

theorem removeIfPresent_sub (r : Repo) (pname : String) :
    ∀ e ∈ (removeIfPresent r pname).tool_per_provider,
      e ∈ r.tool_per_provider ∧ e.1 ≠ pname := by
  unfold removeIfPresent
  split
  · intro e he
    exact (mem_dpop _ _ _).1 he
  · rename_i hc
    intro e he
    exact ⟨he, dcontains_false_forall (by simpa using hc) e he⟩

theorem repoInv_save {r : Repo} (hinv : RepoInv r) {p : Provider}
    {ts : List Tool} (hok : SaveOK r p.name ts) (out : EmbedOutcome) :
    RepoInv (save_provider_with_tools r p ts out) := by
  have hinv1 : RepoInv (removeIfPresent r p.name) :=
    removeIfPresent_inv hinv p.name
  have hsub := removeIfPresent_sub r p.name
  -- every name owned by a surviving entry avoids the new tool names
  have hdisj : ∀ e ∈ (removeIfPresent r p.name).tool_per_provider,
      ∀ t ∈ e.2.2, t.name ∉ namesOf ts := by
    intro e he t ht
    rcases hsub e he with ⟨hmem, hne⟩
    exact hok.2 e hmem hne t ht
  have hflatdisj : ∀ nm ∈ namesOf (removeIfPresent r p.name).tools,
      nm ∉ namesOf ts := by
    intro nm hnm
    rcases List.mem_map.1 hnm with ⟨t, ht, hteq⟩
    rcases (hinv1.mem_iff t).1 ht with ⟨e, he, hte⟩
    rw [← hteq]
    exact hdisj e he t hte
  have hjoindisj : ∀ nm ∈ ((removeIfPresent r p.name).tool_per_provider.map
      (fun e => namesOf e.2.2)).flatten, nm ∉ namesOf ts := by
    intro nm hnm
    rcases List.mem_flatten.1 hnm with ⟨l, hl, hnml⟩
    rcases List.mem_map.1 hl with ⟨e, he, hle⟩
    rw [← hle] at hnml
    rcases List.mem_map.1 hnml with ⟨t, ht, hteq⟩
    rw [← hteq]
    exact hdisj e he t ht
  have hkeysne : ∀ q ∈ (removeIfPresent r p.name).tool_per_provider.map (·.1),
      q ≠ p.name := by
    intro q hq
    rcases List.mem_map.1 hq with ⟨e, he, hqe⟩
    rw [← hqe]
    exact (hsub e he).2
  constructor
  · rw [save_tpp, List.map_append]
    rw [List.nodup_append]
    exact ⟨hinv1.keysNodup, List.nodup_singleton _,
      fun q hq hq' => hkeysne q hq (by simpa using hq')⟩
  · rw [save_tools]
    unfold namesOf
    rw [List.map_append, List.nodup_append]
    exact ⟨hinv1.flatNodup, hok.1, fun q hq hq' => hflatdisj q hq hq'⟩
  · rw [save_tpp, List.map_append, List.flatten_append]
    have : (([(p.name, (p, ts))].map (fun e => namesOf e.2.2)).flatten)
        = namesOf ts := by simp
    rw [this, List.nodup_append]
    exact ⟨hinv1.joinNodup, hok.1, fun q hq hq' => hjoindisj q hq hq'⟩
  · intro t
    rw [save_tools, save_tpp]
    constructor
    · intro ht
      rcases List.mem_append.1 ht with ht | ht
      · rcases (hinv1.mem_iff t).1 ht with ⟨e, he, hte⟩
        exact ⟨e, List.mem_append_left _ he, hte⟩
      · exact ⟨(p.name, (p, ts)), List.mem_append_right _ (by simp), ht⟩
    · rintro ⟨e, he, hte⟩
      rcases List.mem_append.1 he with he | he
      · exact List.mem_append_left _ ((hinv1.mem_iff t).2 ⟨e, he, hte⟩)
      · have : e = (p.name, (p, ts)) := by simpa using he
        rw [this] at hte
        exact List.mem_append_right _ hte

theorem repoInv_step {r : Repo} (hinv : RepoInv r) {op : Op}
    (hpre : opPre r op) : RepoInv (stepOp r op) := by
  cases op with
  | save p ts out => exact repoInv_save hinv hpre out
  | remove n => exact repoInv_remove r hinv n

theorem repoInv_run {r : Repo} (hinv : RepoInv r) {ops : List Op}
    (hwf : WFOps r ops) : RepoInv (runOps r ops) := by
  induction ops generalizing r with
  | nil => exact hinv
  | cons op ops ih =>
      exact ih (repoInv_step hinv hwf.1) hwf.2

theorem wfOps_append_left {r : Repo} {l₁ l₂ : List Op}
    (h : WFOps r (l₁ ++ l₂)) : WFOps r l₁ := by
  induction l₁ generalizing r with
  | nil => trivial
  | cons op ops ih => exact ⟨h.1, ih h.2⟩

theorem c1Inv_of_repoInv {r : Repo} (hinv : RepoInv r) : C1Inv r := by
  refine ⟨hinv.flatNodup, fun n => ?_⟩
  constructor
  · intro hn
    rcases List.mem_map.1 hn with ⟨t, ht, hteq⟩
    rcases (hinv.mem_iff t).1 ht with ⟨e, he, hte⟩
    have hnmem : n ∈ namesOf e.2.2 := by
      rw [← hteq]; exact List.mem_map_of_mem _ hte
    have hecont : ((namesOf e.2.2).contains n) = true := by
      simpa using hnmem
    have hef : e ∈ r.tool_per_provider.filter
        (fun e => (namesOf e.2.2).contains n) :=
      List.mem_filter.2 ⟨he, hecont⟩
    have hall : ∀ x ∈ r.tool_per_provider.filter
        (fun e => (namesOf e.2.2).contains n), x = e := by
      intro x hx
      rcases List.mem_filter.1 hx with ⟨hxm, hxc⟩
      by_contra hne
      exact entries_disjoint hinv hxm he hne (by simpa using hxc) hnmem
    have hnd : (r.tool_per_provider.filter
        (fun e => (namesOf e.2.2).contains n)).Nodup :=
      (List.filter_sublist _).nodup (List.Nodup.of_map _ hinv.keysNodup)
    rw [eq_singleton_of_forall hnd hef hall]
    rfl
  · intro hlen
    have hpos : 0 < (r.tool_per_provider.filter
        (fun e => (namesOf e.2.2).contains n)).length := by
      rw [hlen]; exact Nat.one_pos
    rcases List.exists_mem_of_length_pos hpos with ⟨e, he⟩
    rcases List.mem_filter.1 he with ⟨hem, hec⟩
    have : n ∈ namesOf e.2.2 := by simpa using hec
    rcases List.mem_map.1 this with ⟨t, ht, hteq⟩
    rw [← hteq]
    exact List.mem_map_of_mem _ ((hinv.mem_iff t).2 ⟨e, hem, ht⟩)

/-! ## Claim C1 -/

/-- The sequence refuting C1 as stated: two different providers both
register a tool named `a.x`. -/
def c1ops : List Op :=
  [Op.save ⟨"a"⟩ [⟨"a.x", "d", []⟩] (EmbedOutcome.batch []),
   Op.save ⟨"b"⟩ [⟨"a.x", "d", []⟩] (EmbedOutcome.batch [])]

/-- C1 counterexample: starting from the empty catalog, registering two
providers whose tool lists share the tool name `a.x` leaves the flat tool
sequence with a duplicated name, so the claimed invariant fails after the
second operation. -/
theorem c1_counterexample : ¬ C1Inv (runOps emptyRepo c1ops) := by
  intro h
  have h1 : (["a.x", "a.x"] : List String).Nodup := h.1
  exact absurd h1 (by decide)

/-- C1 (amended): for every operation sequence from the empty catalog in
which each registration's resolved tool names are pairwise distinct and
not owned by any other registered provider, after every prefix of the
sequence the flat tool sequence has no duplicate name and a tool name
appears in it iff it appears in exactly one registered provider's list. -/
theorem c1_amended_theorem (l₁ l₂ : List Op)
    (hwf : WFOps emptyRepo (l₁ ++ l₂)) : C1Inv (runOps emptyRepo l₁) :=
  c1Inv_of_repoInv (repoInv_run repoInv_empty (wfOps_append_left hwf))

def c1wfPre : List Op :=
  [Op.save ⟨"a"⟩ [⟨"a.x", "d", ["m"]⟩] (EmbedOutcome.batch [[]]),
   Op.save ⟨"b"⟩ [⟨"b.y", "d", ["m"]⟩] (EmbedOutcome.batch [[]])]

theorem c1_witness :
    WFOps emptyRepo (c1wfPre ++ [Op.remove "a"])
      ∧ C1Inv (runOps emptyRepo c1wfPre) :=
  ⟨by decide, c1_amended_theorem c1wfPre [Op.remove "a"] (by decide)⟩

/-! ## Fusion loop lemmas -/

theorem addTagTools_names (ts : List Tool) (sel : List Tool)
    (names : List String) (h : names = namesOf sel) :
    (addTagTools ts sel names).2 = namesOf (addTagTools ts sel names).1 := by
  induction ts generalizing sel names with
  | nil => exact h
  | cons t ts ih =>
      unfold addTagTools
      split
      · exact ih sel names h
      · exact ih (sel ++ [t]) (names ++ [t.name])
          (by rw [h]; simp [namesOf])

theorem addTagTools_nodup (ts : List Tool) (sel : List Tool)
    (names : List String) (h : names = namesOf sel) (hnd : names.Nodup) :
    (addTagTools ts sel names).2.Nodup := by
  induction ts generalizing sel names with
  | nil => exact hnd
  | cons t ts ih =>
      unfold addTagTools
      split
      · exact ih sel names h hnd
      · rename_i hmem
        refine ih (sel ++ [t]) (names ++ [t.name])
          (by rw [h]; simp [namesOf]) ?_
        rw [List.nodup_append]
        exact ⟨hnd, List.nodup_singleton _,
          fun a ha ha' => hmem (by rwa [show a = t.name by simpa using ha'] at ha)⟩

theorem addTagTools_ext (ts : List Tool) (sel : List Tool)
    (names : List String) :
    ∃ ext, (addTagTools ts sel names).1 = sel ++ ext := by
  induction ts generalizing sel names with
  | nil => exact ⟨[], by simp [addTagTools]⟩
  | cons t ts ih =>
      unfold addTagTools
      split
      · exact ih sel names
      · rcases ih (sel ++ [t]) (names ++ [t.name]) with ⟨ext, hext⟩
        exact ⟨t :: ext, by rw [hext]; simp⟩

theorem addEmbeddingTools_ext (limit : Int) (rest : List (Tool × Score))
    (sel : List Tool) (names : List String) :
    ∃ ext, addEmbeddingTools limit rest sel names = sel ++ ext
      ∧ ext.Sublist (rest.map (fun p => p.1)) := by
  induction rest generalizing sel names with
  | nil => exact ⟨[], by simp [addEmbeddingTools]⟩
  | cons p rest ih =>
      unfold addEmbeddingTools
      split
      · exact ⟨[], by simp⟩
      · split
        · rcases ih sel names with ⟨ext, hext, hsub⟩
          exact ⟨ext, hext, hsub.trans (List.sublist_cons_self _ _)⟩
        · rcases ih (sel ++ [p.1]) (names ++ [p.1.name]) with ⟨ext, hext, hsub⟩
          refine ⟨p.1 :: ext, by rw [hext]; simp, ?_⟩
          simpa using List.Sublist.cons₂ p.1 hsub

theorem addEmbeddingTools_nodup (limit : Int) (rest : List (Tool × Score))
    (sel : List Tool) (names : List String) (h : names = namesOf sel)
    (hnd : names.Nodup) :
    (namesOf (addEmbeddingTools limit rest sel names)).Nodup := by
  induction rest generalizing sel names with
  | nil => exact h ▸ hnd
  | cons p rest ih =>
      unfold addEmbeddingTools
      split
      · exact h ▸ hnd
      · split
        · exact ih sel names h hnd
        · rename_i hmem
          refine ih (sel ++ [p.1]) (names ++ [p.1.name])
            (by rw [h]; simp [namesOf]) ?_
          rw [List.nodup_append]
          exact ⟨hnd, List.nodup_singleton _,
            fun a ha ha' =>
              hmem (by rwa [show a = p.1.name by simpa using ha'] at ha)⟩

theorem addEmbeddingTools_stop (limit : Int) (rest : List (Tool × Score))
    (sel : List Tool) (names : List String) (h : limit ≤ 0) :
    addEmbeddingTools limit rest sel names = sel := by
  cases rest with
  | nil => rfl
  | cons p rest =>
      unfold addEmbeddingTools
      rw [if_pos]
      exact le_trans h (Int.ofNat_nonneg _)

theorem addEmbeddingTools_length (limit : Int) (rest : List (Tool × Score))
    (sel : List Tool) (names : List String)
    (h : (sel.length : Int) ≤ limit) :
    ((addEmbeddingTools limit rest sel names).length : Int) ≤ limit := by
  induction rest generalizing sel names with
  | nil => exact h
  | cons p rest ih =>
      unfold addEmbeddingTools
      split
      · exact h
      · rename_i hlt
        push_neg at hlt
        split
        · exact ih sel names h
        · refine ih (sel ++ [p.1]) (names ++ [p.1.name]) ?_
          have : ((sel.length : Int)) + 1 ≤ limit := by omega
          simpa using this

/-! ## Claim C3 -/

/-- C3 counterexample: with `limit = 0` (the documented "no limit" value)
the embedding loop breaks immediately — `len(selected_tools) >= 0` is
always true — so an embedding result with a fresh name is *not* appended,
where the claim requires unbounded appending for `limit ≤ 0`. -/
theorem c3_counterexample :
    search_tools_fuse [] [(⟨"e.t", "d", []⟩, Score.val 1 1)] 0 = []
      ∧ (⟨"e.t", "d", []⟩ : Tool) ∉
          search_tools_fuse [] [(⟨"e.t", "d", []⟩, Score.val 1 1)] 0 := by
  refine ⟨by decide, ?_⟩
  intro h
  rw [show search_tools_fuse [] [(⟨"e.t", "d", []⟩, Score.val 1 1)] 0
      = [] by decide] at h
  cases h

/-- C3 (amended): the fused result lists the tag-search tools first in
ranked order deduplicated by name, then appends embedding results with
fresh names in ranked order; it never holds two tools of the same name;
when the deduplicated tag list fits in `limit` the result length stays
within `limit`; and when `limit ≤ 0` the embedding loop appends nothing at
all, so the result is exactly the deduplicated tag list. -/
theorem c3_amended_theorem (tag_tools : List Tool)
    (embedding_results : List (Tool × Score)) (limit : Int) :
    (namesOf (search_tools_fuse tag_tools embedding_results limit)).Nodup
      ∧ (search_tools_fuse tag_tools embedding_results limit).take
          (dedupByName tag_tools).length = dedupByName tag_tools
      ∧ ((search_tools_fuse tag_tools embedding_results limit).drop
          (dedupByName tag_tools).length).Sublist
            (embedding_results.map (fun p => p.1))
      ∧ (limit ≤ 0 →
          search_tools_fuse tag_tools embedding_results limit
            = dedupByName tag_tools)
      ∧ (((dedupByName tag_tools).length : Int) ≤ limit →
          ((search_tools_fuse tag_tools embedding_results limit).length : Int)
            ≤ limit) := by
  have hnames := addTagTools_names tag_tools [] [] rfl
  have hnd := addTagTools_nodup tag_tools [] [] rfl (List.nodup_nil)
  have hfuse : search_tools_fuse tag_tools embedding_results limit
      = addEmbeddingTools limit embedding_results (dedupByName tag_tools)
          (namesOf (dedupByName tag_tools)) := by
    unfold search_tools_fuse dedupByName
    rw [← hnames]
  rw [hnames] at hnd
  rcases addEmbeddingTools_ext limit embedding_results
      (dedupByName tag_tools) (namesOf (dedupByName tag_tools)) with
    ⟨ext, hext, hsub⟩
  refine ⟨?_, ?_, ?_, ?_, ?_⟩
  · rw [hfuse]
    exact addEmbeddingTools_nodup limit embedding_results _ _ rfl hnd
  · rw [hfuse, hext, List.take_left]
  · rw [hfuse, hext, List.drop_left]
    exact hsub
  · intro hle
    rw [hfuse]
    exact addEmbeddingTools_stop limit embedding_results _ _ hle
  · intro hlen
    rw [hfuse]
    exact addEmbeddingTools_length limit embedding_results _ _ hlen

theorem c3_witness :
    ((namesOf (search_tools_fuse [⟨"t.a", "d", []⟩]
          [(⟨"e.b", "d", []⟩, Score.val 1 1)] 2)).Nodup
        ∧ (search_tools_fuse [⟨"t.a", "d", []⟩]
            [(⟨"e.b", "d", []⟩, Score.val 1 1)] 2).take
              (dedupByName [⟨"t.a", "d", []⟩]).length
            = dedupByName [⟨"t.a", "d", []⟩]
        ∧ ((search_tools_fuse [⟨"t.a", "d", []⟩]
            [(⟨"e.b", "d", []⟩, Score.val 1 1)] 2).drop
              (dedupByName [⟨"t.a", "d", []⟩]).length).Sublist
                ([(⟨"e.b", "d", []⟩, Score.val 1 1)].map (fun p => p.1))
        ∧ ((2 : Int) ≤ 0 →
            search_tools_fuse [⟨"t.a", "d", []⟩]
                [(⟨"e.b", "d", []⟩, Score.val 1 1)] 2
              = dedupByName [⟨"t.a", "d", []⟩])
        ∧ (((dedupByName [⟨"t.a", "d", []⟩]).length : Int) ≤ 2 →
            ((search_tools_fuse [⟨"t.a", "d", []⟩]
                [(⟨"e.b", "d", []⟩, Score.val 1 1)] 2).length : Int) ≤ 2)) :=
  c3_amended_theorem [⟨"t.a", "d", []⟩]
    [(⟨"e.b", "d", []⟩, Score.val 1 1)] 2

/-! ## Claims C4 and C10: tag search -/

/-- The scoring of one tool as the spec sentence describes it: `none` when
the effective tag set does not intersect the query tags, otherwise the
average of the two guarded fractions. -/
def specScore (tags : List String) (t : Tool) : Option (Tool × ℚ) :=
  match effective_tags t with
  | none => none
  | some eff =>
      if (tags.toFinset ∩ eff).Nonempty then
        some (t, (((tags.toFinset ∩ eff).card : ℚ) / (tags.length : ℚ)
          + ((tags.toFinset ∩ eff).card : ℚ) / ((eff.card : ℚ) + 1)) / 2)
      else none

/-- `searchByTags` as the spec describes it: keep exactly the tools whose
effective tag set meets the query tags, score them, sort by score
descending with the stable tie-break in catalog order, truncate to
`top_k`. -/
def searchByTagsSpec (r : Repo) (tags : List String) (top_k : Nat) :
    List (Tool × ℚ) :=
  (stableSort (fun a b => decide (b.2 ≤ a.2))
    (r.tools.filterMap (fun t => specScore tags t))).take top_k

theorem effective_tags_isSome (t : Tool) :
    (effective_tags t).isSome ↔ 2 ≤ (pySplitDot t.name).length := by
  unfold effective_tags
  cases h : pySplitDot t.name with
  | nil => simp
  | cons p0 rest =>
      cases rest with
      | nil => simp
      | cons p1 rest2 => simp

theorem scoreByTags_none (tags : List String) (t : Tool) :
    scoreByTags tags t = none ↔ effective_tags t = none := by
  unfold scoreByTags
  cases effective_tags t with
  | none => simp
  | some eff =>
      simp only [Option.some.injEq]
      constructor
      · intro h
        split at h <;> cases h
      · intro h; cases h

theorem scoreByTags_eq_spec (tags : List String) (t : Tool)
    (h : (effective_tags t).isSome) :
    scoreByTags tags t = some (specScore tags t) := by
  unfold scoreByTags specScore
  rcases Option.isSome_iff_exists.1 h with ⟨eff, heff⟩
  rw [heff]
  dsimp only
  by_cases hne : (tags.toFinset ∩ eff) = ∅
  · rw [if_pos hne, if_neg]
    rw [hne]
    exact fun hc => (Finset.not_nonempty_empty hc)
  · rw [if_neg hne, if_pos (Finset.nonempty_iff_ne_empty.2 hne)]

theorem collect_eq_filterMap (tags : List String) (tools : List Tool)
    (h : ∀ t ∈ tools, (effective_tags t).isSome) :
    collectByTags tags tools
      = some (tools.filterMap (fun t => specScore tags t)) := by
  induction tools with
  | nil => rfl
  | cons t ts ih =>
      unfold collectByTags
      rw [scoreByTags_eq_spec tags t (h t (List.mem_cons_self t ts))]
      rw [ih (fun x hx => h x (List.mem_cons_of_mem t hx))]
      simp only [Option.map_some']
      cases hs : specScore tags t with
      | none => simp [List.filterMap_cons, hs]
      | some pr => simp [List.filterMap_cons, hs]

theorem collect_none_of_bad (tags : List String) (tools : List Tool)
    (h : ∃ t ∈ tools, effective_tags t = none) :
    collectByTags tags tools = none := by
  induction tools with
  | nil => rcases h with ⟨t, ht, _⟩; cases ht
  | cons t ts ih =>
      rcases h with ⟨t', ht', hbad⟩
      unfold collectByTags
      rcases List.mem_cons.1 ht' with ht' | ht'
      · rw [ht'] at hbad
        rw [(scoreByTags_none tags t).2 hbad]
      · cases hs : scoreByTags tags t with
        | none => rfl
        | some o => rw [ih ⟨t', ht', hbad⟩]; rfl

/-- C10: `searchByTags` is total exactly on catalogs whose tool names all
contain a dot: one dotless tool name makes every query raise `IndexError`
(the `tool.name.split(".")[1]` access), and when every name has a dot every
query returns a result. -/
theorem c10_theorem (r : Repo) (tags : List String) (top_k : Nat) :
    ((∃ t ∈ r.tools, (pySplitDot t.name).length < 2) →
        search_by_tags r tags top_k = none)
      ∧ ((∀ t ∈ r.tools, 2 ≤ (pySplitDot t.name).length) →
        (search_by_tags r tags top_k).isSome) := by
  constructor
  · rintro ⟨t, ht, hlen⟩
    have hbad : effective_tags t = none := by
      rcases h : effective_tags t with _ | eff
      · rfl
      · exfalso
        have : (effective_tags t).isSome := by rw [h]; rfl
        rw [effective_tags_isSome] at this
        omega
    unfold search_by_tags
    rw [collect_none_of_bad tags r.tools ⟨t, ht, hbad⟩]
    rfl
  · intro hwf
    unfold search_by_tags
    rw [collect_eq_filterMap tags r.tools
      (fun t ht => (effective_tags_isSome t).2 (hwf t ht))]
    rfl

def c10badRepo : Repo := ⟨[⟨"nodot", "d", ["w"]⟩], [], [], ∅⟩

def c10goodRepo : Repo := ⟨[⟨"w.f", "d", ["w"]⟩], [], [], ∅⟩

theorem c10_witness :
    search_by_tags c10badRepo ["w"] 5 = none
      ∧ (search_by_tags c10goodRepo ["w"] 5).isSome :=
  ⟨(c10_theorem c10badRepo ["w"] 5).1 ⟨⟨"nodot", "d", ["w"]⟩, by decide, by decide⟩,
   (c10_theorem c10goodRepo ["w"] 5).2 (by decide)⟩

/-- C4: with every tool name of the data-model form `provider.local`
(containing a dot, as C10 requires for totality), `searchByTags` returns
exactly the spec-described list — the tools whose effective tag set meets
the query tags, scored by the guarded average, stable-sorted by score
descending, truncated to `top_k` — and in particular every returned pair
has a nonempty intersection and carries the documented score, the result
is sorted non-increasingly, and its length is at most `top_k`. -/
theorem c4_theorem (r : Repo) (tags : List String) (top_k : Nat)
    (hwf : ∀ t ∈ r.tools, 2 ≤ (pySplitDot t.name).length) :
    search_by_tags r tags top_k = some (searchByTagsSpec r tags top_k)
      ∧ (∀ pr ∈ searchByTagsSpec r tags top_k,
          pr.1 ∈ r.tools ∧
          ∃ eff, effective_tags pr.1 = some eff ∧
            (tags.toFinset ∩ eff).Nonempty ∧
            pr.2 = (((tags.toFinset ∩ eff).card : ℚ) / (tags.length : ℚ)
              + ((tags.toFinset ∩ eff).card : ℚ) / ((eff.card : ℚ) + 1)) / 2)
      ∧ (searchByTagsSpec r tags top_k).Pairwise (fun a b => b.2 ≤ a.2)
      ∧ (searchByTagsSpec r tags top_k).length ≤ top_k := by
  have hsome : ∀ t ∈ r.tools, (effective_tags t).isSome :=
    fun t ht => (effective_tags_isSome t).2 (hwf t ht)
  refine ⟨?_, ?_, ?_, ?_⟩
  · unfold search_by_tags
    rw [collect_eq_filterMap tags r.tools hsome]
    rfl
  · intro pr hpr
    have hsorted : pr ∈ stableSort (fun a b => decide (b.2 ≤ a.2))
        (r.tools.filterMap (fun t => specScore tags t)) :=
      List.mem_of_mem_take (by simpa [searchByTagsSpec] using hpr)
    have hmem : pr ∈ r.tools.filterMap (fun t => specScore tags t) :=
      (mem_stableSort _ _ pr).1 hsorted
    rcases List.mem_filterMap.1 hmem with ⟨t, ht, hspec⟩
    unfold specScore at hspec
    rcases heff : effective_tags t with _ | eff
    · rw [heff] at hspec; cases hspec
    · rw [heff] at hspec
      dsimp only at hspec
      by_cases hne : (tags.toFinset ∩ eff).Nonempty
      · rw [if_pos hne] at hspec
        have hpreq := Option.some.inj hspec
        have hpr1 : pr.1 = t := by rw [← hpreq]
        have hpr2 : pr.2 = (((tags.toFinset ∩ eff).card : ℚ)
            / (tags.length : ℚ)
            + ((tags.toFinset ∩ eff).card : ℚ) / ((eff.card : ℚ) + 1)) / 2 := by
          rw [← hpreq]
        exact ⟨hpr1 ▸ ht, eff, hpr1 ▸ heff, hne, hpr2⟩
      · rw [if_neg hne] at hspec; cases hspec
  · have hp := pairwise_stableSort
      (fun (a b : Tool × ℚ) => decide (b.2 ≤ a.2))
      (fun a b => by
        rcases le_total b.2 a.2 with h | h
        · exact Or.inl (decide_eq_true h)
        · exact Or.inr (decide_eq_true h))
      (fun a b c hab hbc =>
        decide_eq_true (le_trans (of_decide_eq_true hbc) (of_decide_eq_true hab)))
      (r.tools.filterMap (fun t => specScore tags t))
    have := hp.sublist (List.take_sublist top_k _)
    exact this.imp (fun h => of_decide_eq_true h)
  · exact List.length_take_le top_k _

theorem c4_witness :
    search_by_tags c10goodRepo ["w"] 5
        = some (searchByTagsSpec c10goodRepo ["w"] 5)
      ∧ (∀ pr ∈ searchByTagsSpec c10goodRepo ["w"] 5,
          pr.1 ∈ c10goodRepo.tools ∧
          ∃ eff, effective_tags pr.1 = some eff ∧
            ((["w"] : List String).toFinset ∩ eff).Nonempty ∧
            pr.2 = (((((["w"] : List String)).toFinset ∩ eff).card : ℚ)
                / ((["w"] : List String).length : ℚ)
              + ((((["w"] : List String)).toFinset ∩ eff).card : ℚ)
                / ((eff.card : ℚ) + 1)) / 2)
      ∧ (searchByTagsSpec c10goodRepo ["w"] 5).Pairwise
          (fun a b => b.2 ≤ a.2)
      ∧ (searchByTagsSpec c10goodRepo ["w"] 5).length ≤ 5 :=
  c4_theorem c10goodRepo ["w"] 5 (by decide)

/-! ## Claim C5: zero-norm embeddings -/

def c5repo : Repo := ⟨[⟨"a.x", "d", []⟩], [], [("a.x", [1])], ∅⟩

/-- C5 counterexample: the query vector `[0]` has zero norm, yet the tool
whose embedding is indexed is not skipped — `_cosine_similarity` performs
the division (numpy 0/0, i.e. nan) and the tool appears in the returned
ranking with that nan score. -/
theorem c5_counterexample :
    normSq [(0 : ℚ)] = 0
      ∧ search_by_embedding c5repo [0] 5 = [(⟨"a.x", "d", []⟩, Score.nan)] := by
  have hc : cosine_similarity [(0 : ℚ)] [1] = Score.nan := by
    unfold cosine_similarity
    rw [if_pos]
    simp [normSq, dotP]
  constructor
  · simp [normSq, dotP]
  · simp [search_by_embedding, embeddingCandidates, dlookup, List.find?, hc,
      stableSort, stableInsert, c5repo]

/-- C5 (amended): `search_by_embedding` never skips an indexed tool — for
every query vector, every flat-list tool with an embedding-index entry is
scored and enters the candidate list; when a norm product is zero the score
produced by the unconditional division is nan rather than a skip; and with
`top_k` covering the candidate count the tool appears in the returned
ranking regardless of the zero norm. -/
theorem c5_amended_theorem (r : Repo) (q : Vec) (t : Tool) (e : Vec)
    (ht : t ∈ r.tools) (he : dlookup r.tool_embeddings t.name = some e) :
    (t, cosine_similarity q e) ∈ embeddingCandidates r q
      ∧ (normSq q * normSq e = 0 → cosine_similarity q e = Score.nan)
      ∧ (t, cosine_similarity q e) ∈
          search_by_embedding r q (embeddingCandidates r q).length := by
  have hmem : (t, cosine_similarity q e) ∈ embeddingCandidates r q := by
    unfold embeddingCandidates
    exact List.mem_filterMap.2 ⟨t, ht, by rw [he]; rfl⟩
  refine ⟨hmem, ?_, ?_⟩
  · intro h; unfold cosine_similarity; rw [if_pos h]
  · unfold search_by_embedding
    have hlen : (stableSort (fun a b => ! Score.ltB a.2 b.2)
        (embeddingCandidates r q)).length
          = (embeddingCandidates r q).length :=
      (stableSort_perm _ _).length_eq
    rw [← hlen, List.take_length]
    exact (mem_stableSort _ _ _).2 hmem

theorem c5_witness :
    ((⟨"a.x", "d", []⟩ : Tool), cosine_similarity [0] [1])
        ∈ embeddingCandidates c5repo [0]
      ∧ (normSq [(0 : ℚ)] * normSq [1] = 0 →
          cosine_similarity [0] [1] = Score.nan)
      ∧ ((⟨"a.x", "d", []⟩ : Tool), cosine_similarity [0] [1]) ∈
          search_by_embedding c5repo [0]
            (embeddingCandidates c5repo [0]).length :=
  c5_amended_theorem c5repo [0] ⟨"a.x", "d", []⟩ [1] (by decide) (by decide)

/-! ## Claim C6: idempotent re-registration — helper lemmas -/

theorem dpop_not_contains {α : Type} {d : List (String × α)} {k : String}
    (h : dcontains d k = false) : dpop d k = d := by
  rw [dpop, List.filter_eq_self]
  intro p hp
  simpa using dcontains_false_forall h p hp

theorem dcontains_append_singleton {α : Type} (d : List (String × α))
    (k : String) (v : α) : dcontains (d ++ [(k, v)]) k = true := by
  rw [dcontains, List.any_eq_true]
  exact ⟨(k, v), by simp⟩

theorem dlookup_map_update_self {α : Type} {d : List (String × α)}
    {k : String} (v : α) (hc : d.any (fun p => p.1 == k) = true) :
    dlookup (d.map (fun p => if p.1 == k then (k, v) else p)) k = some v := by
  induction d with
  | nil => cases hc
  | cons p ps ih =>
      simp only [List.map_cons]
      by_cases hk : p.1 = k
      · rw [if_pos (by simpa using hk)]
        simp [dlookup, List.find?]
      · rw [if_neg (by simpa using hk)]
        have hc' : ps.any (fun p => p.1 == k) = true := by
          rcases List.any_eq_true.1 hc with ⟨q, hq, hqk⟩
          rcases List.mem_cons.1 hq with hq | hq
          · subst hq; exact absurd (by simpa using hqk) hk
          · exact List.any_eq_true.2 ⟨q, hq, hqk⟩
        have hne : (p.1 == k) = false := by simpa using hk
        simp only [dlookup, List.find?, hne]
        exact ih hc'

theorem dlookup_dinsert_self {α : Type} (d : List (String × α)) (k : String)
    (v : α) : dlookup (dinsert d k v) k = some v := by
  unfold dinsert
  split
  · rename_i hc; exact dlookup_map_update_self v hc
  · rename_i hc
    rw [dlookup_append]
    have hnone : dlookup d k = none := by
      rw [dlookup_eq_none]
      exact dcontains_false_forall (Bool.eq_false_iff.2 hc)
    rw [hnone]
    simp [dlookup, List.find?]

/-- The pure fold the batch branch performs on the embedding index. -/
def embBatchFold (d : List (String × Vec)) (l : List (Tool × Vec)) :
    List (String × Vec) :=
  l.foldl (fun d p => if p.2 ≠ [] then dinsert d p.1.name p.2 else d) d

/-- The pure fold the batch branch performs on the tag cache. -/
def tagFold (a : Finset String) (l : List (Tool × Vec)) : Finset String :=
  l.foldl (fun a p => a ∪ p.1.tags.toFinset) a

/-- The fold `remove_provider` performs on the embedding index. -/
def eraseFold (d : List (String × Vec)) (l : List Tool) :
    List (String × Vec) :=
  l.foldl (fun d t => dpop d t.name) d

theorem saveEmbedStep_batch_emb (r : Repo) (ts : List Tool)
    (res : List Vec) :
    (saveEmbedStep r ts (EmbedOutcome.batch res)).tool_embeddings
      = embBatchFold r.tool_embeddings (ts.zip res) := by
  show (List.foldl _ r (ts.zip res)).tool_embeddings = _
  generalize ts.zip res = l
  induction l generalizing r with
  | nil => rfl
  | cons p l ih =>
      rw [List.foldl_cons]
      rw [ih]
      show embBatchFold (if p.2 ≠ [] then dinsert r.tool_embeddings p.1.name p.2
        else r.tool_embeddings) l = _
      rfl

theorem saveEmbedStep_batch_tags (r : Repo) (ts : List Tool)
    (res : List Vec) :
    (saveEmbedStep r ts (EmbedOutcome.batch res)).all_tags
      = tagFold r.all_tags (ts.zip res) := by
  show (List.foldl _ r (ts.zip res)).all_tags = _
  generalize ts.zip res = l
  induction l generalizing r with
  | nil => rfl
  | cons p l ih =>
      rw [List.foldl_cons]
      rw [ih]
      rfl

theorem save_emb_batch (r : Repo) (p : Provider) (ts : List Tool)
    (res : List Vec) :
    (save_provider_with_tools r p ts (EmbedOutcome.batch res)).tool_embeddings
      = embBatchFold (removeIfPresent r p.name).tool_embeddings
          (ts.zip res) := by
  show (saveEmbedStep (removeIfPresent r p.name) ts
      (EmbedOutcome.batch res)).tool_embeddings = _
  exact saveEmbedStep_batch_emb _ ts res

theorem save_tags_batch (r : Repo) (p : Provider) (ts : List Tool)
    (res : List Vec) :
    (save_provider_with_tools r p ts (EmbedOutcome.batch res)).all_tags
      = tagFold (removeIfPresent r p.name).all_tags (ts.zip res) := by
  show (saveEmbedStep (removeIfPresent r p.name) ts
      (EmbedOutcome.batch res)).all_tags = _
  exact saveEmbedStep_batch_tags _ ts res

/-- The last embedding actually stored for key `k` by the batch loop. -/
def lastVec (k : String) : List (Tool × Vec) → Option Vec
  | [] => none
  | p :: l =>
      match lastVec k l with
      | some v => some v
      | none => if p.1.name = k ∧ p.2 ≠ [] then some p.2 else none

theorem dlookup_embBatchFold (d : List (String × Vec))
    (l : List (Tool × Vec)) (k : String) :
    dlookup (embBatchFold d l) k
      = match lastVec k l with
        | some v => some v
        | none => dlookup d k := by
  induction l generalizing d with
  | nil => rfl
  | cons p l ih =>
      show dlookup (embBatchFold
        (if p.2 ≠ [] then dinsert d p.1.name p.2 else d) l) k = _
      rw [ih]
      have hcons : lastVec k (p :: l)
          = (match lastVec k l with
             | some v => some v
             | none => if p.1.name = k ∧ p.2 ≠ [] then some p.2
                       else none) := rfl
      rw [hcons]
      cases hlast : lastVec k l with
      | some v => rfl
      | none =>
          dsimp only
          by_cases hcase : p.1.name = k ∧ p.2 ≠ []
          · rw [if_pos hcase, if_pos hcase.2]
            dsimp only
            rw [hcase.1, dlookup_dinsert_self]
          · rw [if_neg hcase]
            dsimp only
            by_cases hv : p.2 ≠ []
            · rw [if_pos hv]
              have hk : k ≠ p.1.name := fun hh => hcase ⟨hh.symm, hv⟩
              exact dlookup_dinsert_ne d p.2 hk
            · rw [if_neg hv]

theorem dlookup_eraseFold (d : List (String × Vec)) (l : List Tool)
    (k : String) :
    dlookup (eraseFold d l) k
      = if k ∈ namesOf l then none else dlookup d k := by
  induction l generalizing d with
  | nil => simp [eraseFold, namesOf]
  | cons t l ih =>
      show dlookup (eraseFold (dpop d t.name) l) k = _
      rw [ih]
      simp only [namesOf, List.map_cons, List.mem_cons]
      by_cases hl : k ∈ l.map (fun x => x.name)
      · rw [if_pos hl, if_pos (Or.inr hl)]
      · rw [if_neg hl]
        by_cases hk : k = t.name
        · rw [if_pos (Or.inl hk), hk, dlookup_dpop_self]
        · rw [if_neg (fun h => h.elim hk hl), dlookup_dpop_ne d hk]

/-- The pure fold the fallback branch performs on the embedding index
(an individually embedded tool is stored unconditionally, even an empty
vector; a tool whose individual embed raised is skipped). -/
def embFbFold (d : List (String × Vec)) (l : List (Tool × Option Vec)) :
    List (String × Vec) :=
  l.foldl (fun d p =>
    match p.2 with
    | some e => dinsert d p.1.name e
    | none => d) d

/-- The pure fold the fallback branch performs on the tag cache (skipped
for a tool whose individual embed raised). -/
def tagFbFold (a : Finset String) (l : List (Tool × Option Vec)) :
    Finset String :=
  l.foldl (fun a p =>
    match p.2 with
    | some _ => a ∪ p.1.tags.toFinset
    | none => a) a

theorem saveEmbedStep_fb_emb (r : Repo) (ts : List Tool)
    (res : List (Option Vec)) :
    (saveEmbedStep r ts (EmbedOutcome.fallback res)).tool_embeddings
      = embFbFold r.tool_embeddings (ts.zip res) := by
  show (List.foldl _ r (ts.zip res)).tool_embeddings = _
  generalize ts.zip res = l
  induction l generalizing r with
  | nil => rfl
  | cons p l ih =>
      rw [List.foldl_cons]
      show _ = embFbFold
        (match p.2 with
          | some e => dinsert r.tool_embeddings p.1.name e
          | none => r.tool_embeddings) l
      cases p.2 with
      | some e => exact ih _
      | none => exact ih _

theorem saveEmbedStep_fb_tags (r : Repo) (ts : List Tool)
    (res : List (Option Vec)) :
    (saveEmbedStep r ts (EmbedOutcome.fallback res)).all_tags
      = tagFbFold r.all_tags (ts.zip res) := by
  show (List.foldl _ r (ts.zip res)).all_tags = _
  generalize ts.zip res = l
  induction l generalizing r with
  | nil => rfl
  | cons p l ih =>
      rw [List.foldl_cons]
      show _ = tagFbFold
        (match p.2 with
          | some _ => r.all_tags ∪ p.1.tags.toFinset
          | none => r.all_tags) l
      cases p.2 with
      | some e => exact ih _
      | none => exact ih _

/-- The last embedding actually stored for key `k` by the fallback loop. -/
def lastVecFb (k : String) : List (Tool × Option Vec) → Option Vec
  | [] => none
  | p :: l =>
      match lastVecFb k l with
      | some v => some v
      | none =>
          match p.2 with
          | some e => if p.1.name = k then some e else none
          | none => none

theorem dlookup_embFbFold (d : List (String × Vec))
    (l : List (Tool × Option Vec)) (k : String) :
    dlookup (embFbFold d l) k
      = match lastVecFb k l with
        | some v => some v
        | none => dlookup d k := by
  induction l generalizing d with
  | nil => rfl
  | cons p l ih =>
      show dlookup (embFbFold
        (match p.2 with
          | some e => dinsert d p.1.name e
          | none => d) l) k = _
      rw [ih]
      have hcons : lastVecFb k (p :: l)
          = (match lastVecFb k l with
             | some v => some v
             | none =>
                 match p.2 with
                 | some e => if p.1.name = k then some e else none
                 | none => none) := rfl
      rw [hcons]
      cases hlast : lastVecFb k l with
      | some v => rfl
      | none =>
          dsimp only
          cases hp : p.2 with
          | none => rfl
          | some e =>
              dsimp only
              by_cases hk : p.1.name = k
              · rw [if_pos hk, hk, dlookup_dinsert_self]
              · rw [if_neg hk]
                exact dlookup_dinsert_ne d e (fun hh => hk hh.symm)

/-- The embedding-index fold one save performs, for either collaborator
outcome. -/
def embOutFold (d : List (String × Vec)) (ts : List Tool) :
    EmbedOutcome → List (String × Vec)
  | EmbedOutcome.batch res => embBatchFold d (ts.zip res)
  | EmbedOutcome.fallback res => embFbFold d (ts.zip res)

/-- The tag-cache fold one save performs, for either collaborator
outcome. -/
def tagOutFold (a : Finset String) (ts : List Tool) :
    EmbedOutcome → Finset String
  | EmbedOutcome.batch res => tagFold a (ts.zip res)
  | EmbedOutcome.fallback res => tagFbFold a (ts.zip res)

/-- The last embedding stored for key `k` by one save, for either
collaborator outcome. -/
def lastStored (k : String) (ts : List Tool) : EmbedOutcome → Option Vec
  | EmbedOutcome.batch res => lastVec k (ts.zip res)
  | EmbedOutcome.fallback res => lastVecFb k (ts.zip res)

theorem save_emb_out (r : Repo) (p : Provider) (ts : List Tool)
    (out : EmbedOutcome) :
    (save_provider_with_tools r p ts out).tool_embeddings
      = embOutFold (removeIfPresent r p.name).tool_embeddings ts out := by
  cases out with
  | batch res => exact save_emb_batch r p ts res
  | fallback res => exact saveEmbedStep_fb_emb (removeIfPresent r p.name) ts res

theorem save_tags_out (r : Repo) (p : Provider) (ts : List Tool)
    (out : EmbedOutcome) :
    (save_provider_with_tools r p ts out).all_tags
      = tagOutFold (removeIfPresent r p.name).all_tags ts out := by
  cases out with
  | batch res => exact save_tags_batch r p ts res
  | fallback res => exact saveEmbedStep_fb_tags (removeIfPresent r p.name) ts res

theorem dlookup_embOutFold (d : List (String × Vec)) (ts : List Tool)
    (out : EmbedOutcome) (k : String) :
    dlookup (embOutFold d ts out) k
      = match lastStored k ts out with
        | some v => some v
        | none => dlookup d k := by
  cases out with
  | batch res => exact dlookup_embBatchFold d (ts.zip res) k
  | fallback res => exact dlookup_embFbFold d (ts.zip res) k

/-! ## Claim C6: the theorems -/

def c6s0 : Repo :=
  save_provider_with_tools emptyRepo ⟨"b"⟩ [⟨"b.x", "d", []⟩]
    (EmbedOutcome.batch [[]])

def c6s1 : Repo :=
  save_provider_with_tools c6s0 ⟨"a"⟩ [⟨"b.x", "d", []⟩]
    (EmbedOutcome.batch [[]])

def c6s2 : Repo :=
  save_provider_with_tools c6s1 ⟨"a"⟩ [⟨"b.x", "d", []⟩]
    (EmbedOutcome.batch [[]])

/-- C6 counterexample: in a catalog where another provider (`b`) owns a
tool equal to one of the saved tools, saving provider `a` twice is not the
same as saving it once — the second save's removal step deletes `b`'s equal
tool from the flat list as well, so the flat sequences differ. -/
theorem c6_counterexample :
    c6s1.tools = [⟨"b.x", "d", []⟩, ⟨"b.x", "d", []⟩]
      ∧ c6s2.tools = [⟨"b.x", "d", []⟩]
      ∧ c6s2.tools ≠ c6s1.tools := by
  exact ⟨by decide, by decide, by decide⟩

/-- C6 (amended): saving the same provider (same name, same resolved tool
list, same embedding outcomes — either a returned batch or the raising
fallback, both modelled by `EmbedOutcome`) twice in succession is
idempotent — flat tool sequence, provider map, embedding index (as a
mapping) and tag cache all agree with the single-save state — provided the
starting catalog is well-formed for this save: any catalog tool sharing a
name with the new tool list belongs to the provider being saved, the
embedding-index keys are names of catalog tools, and the tag cache equals
the union of the catalog tools' tags. -/
theorem c6_amended_theorem (s : Repo) (p : Provider) (ts : List Tool)
    (out : EmbedOutcome)
    (h1 : ∀ t ∈ s.tools, t.name ∈ namesOf ts → t ∈ providerTools s p.name)
    (h2 : ∀ kv ∈ s.tool_embeddings, kv.1 ∈ namesOf s.tools)
    (h3 : s.all_tags = rebuildTags s.tools) :
    (save_provider_with_tools
        (save_provider_with_tools s p ts out) p ts out).tools
      = (save_provider_with_tools s p ts out).tools
    ∧ (save_provider_with_tools
        (save_provider_with_tools s p ts out) p ts out).tool_per_provider
      = (save_provider_with_tools s p ts out).tool_per_provider
    ∧ (∀ k : String,
        dlookup (save_provider_with_tools
          (save_provider_with_tools s p ts out) p ts out).tool_embeddings k
        = dlookup (save_provider_with_tools s p ts out).tool_embeddings k)
    ∧ (save_provider_with_tools
        (save_provider_with_tools s p ts out) p ts out).all_tags
      = (save_provider_with_tools s p ts out).all_tags
    := by
  have hr1sub : ∀ b ∈ (removeIfPresent s p.name).tools,
      b ∈ s.tools ∧ b ∉ providerTools s p.name := by
    unfold removeIfPresent
    split
    · intro b hb
      exact (mem_filter_not_contains _ _ b).1 hb
    · rename_i hc
      intro b hb
      refine ⟨hb, ?_⟩
      unfold providerTools
      rw [dlookup_eq_none.2 (dcontains_false_forall (Bool.eq_false_iff.2 hc))]
      simp
  have hB : ∀ b ∈ (removeIfPresent s p.name).tools, b.name ∉ namesOf ts := by
    intro b hb hbn
    rcases hr1sub b hb with ⟨hbs, hbnot⟩
    exact hbnot (h1 b hbs hbn)
  have hBmem : ∀ b ∈ (removeIfPresent s p.name).tools, b ∉ ts := by
    intro b hb hmem
    exact hB b hb (List.mem_map_of_mem _ hmem)
  have hE : ∀ k ∈ namesOf ts,
      dlookup (removeIfPresent s p.name).tool_embeddings k = none := by
    intro k hk
    have hsnone_or : dlookup s.tool_embeddings k = none
        ∨ k ∈ namesOf (providerTools s p.name) := by
      cases hsk : dlookup s.tool_embeddings k with
      | none => exact Or.inl rfl
      | some v =>
          right
          have hkv := dlookup_mem hsk
          have hks := h2 (k, v) hkv
          rcases List.mem_map.1 hks with ⟨t, ht, hteq⟩
          have hteq' : t.name = k := hteq
          have hto : t ∈ providerTools s p.name :=
            h1 t ht (by rw [hteq']; exact hk)
          rw [← hteq']
          exact List.mem_map_of_mem _ hto
    unfold removeIfPresent
    split
    · show dlookup (eraseFold s.tool_embeddings
        (providerTools s p.name)) k = none
      rw [dlookup_eraseFold]
      by_cases hmem2 : k ∈ namesOf (providerTools s p.name)
      · rw [if_pos hmem2]
      · rw [if_neg hmem2]
        rcases hsnone_or with hnone | hmem
        · exact hnone
        · exact absurd hmem hmem2
    · rename_i hc
      rcases hsnone_or with hnone | hmem
      · exact hnone
      · exfalso
        unfold providerTools at hmem
        rw [dlookup_eq_none.2
          (dcontains_false_forall (Bool.eq_false_iff.2 hc))] at hmem
        simp [namesOf] at hmem
  have hT : (removeIfPresent s p.name).all_tags
      = rebuildTags (removeIfPresent s p.name).tools := by
    unfold removeIfPresent
    split
    · rfl
    · exact h3
  have hr1tpp : (removeIfPresent s p.name).tool_per_provider
      = dpop s.tool_per_provider p.name := by
    unfold removeIfPresent
    split
    · rfl
    · rename_i hc
      rw [dpop_not_contains (Bool.eq_false_iff.2 hc)]
  have hs1tools := save_tools s p ts out
  have hs1tpp := save_tpp s p ts out
  have hs1emb := save_emb_out s p ts out
  have hs1tags := save_tags_out s p ts out
  have hr1keys : ∀ q ∈ (removeIfPresent s p.name).tool_per_provider,
      q.1 ≠ p.name := by
    intro q hq
    rw [hr1tpp] at hq
    exact ((mem_dpop _ _ _).1 hq).2
  have hc2 : dcontains (save_provider_with_tools s p ts
      out).tool_per_provider p.name = true := by
    rw [hs1tpp]
    exact dcontains_append_singleton _ _ _
  have hrip2 : removeIfPresent (save_provider_with_tools s p ts
        out) p.name
      = remove_provider_core (save_provider_with_tools s p ts
        out) p.name := by
    unfold removeIfPresent
    rw [if_pos hc2]
  have hOldT2 : providerTools (save_provider_with_tools s p ts
      out) p.name = ts := by
    unfold providerTools
    rw [hs1tpp, dlookup_of_not_mem_left hr1keys]
    simp [dlookup, List.find?]
  have hr2tools : (remove_provider_core (save_provider_with_tools s p ts
        out) p.name).tools
      = (removeIfPresent s p.name).tools := by
    show (save_provider_with_tools s p ts
        out).tools.filter _ = _
    rw [hOldT2, hs1tools, List.filter_append]
    have hfa : (removeIfPresent s p.name).tools.filter
        (fun t => ¬ ts.contains t) = (removeIfPresent s p.name).tools := by
      rw [List.filter_eq_self]
      intro b hb
      rw [decide_eq_true_iff]
      intro hcon
      exact hBmem b hb (by simpa using hcon)
    have hfb : ts.filter (fun t => ¬ ts.contains t) = [] := by
      rw [List.filter_eq_nil_iff]
      intro a ha
      simp [ha]
    rw [hfa, hfb, List.append_nil]
  have hr2tpp : (remove_provider_core (save_provider_with_tools s p ts
        out) p.name).tool_per_provider
      = (removeIfPresent s p.name).tool_per_provider := by
    show dpop (save_provider_with_tools s p ts
        out).tool_per_provider p.name = _
    rw [hs1tpp]
    unfold dpop
    rw [List.filter_append]
    have hfa : (removeIfPresent s p.name).tool_per_provider.filter
        (fun p' => ¬ p'.1 == p.name)
        = (removeIfPresent s p.name).tool_per_provider := by
      rw [List.filter_eq_self]
      intro q hq
      rw [decide_eq_true_iff]
      simpa using hr1keys q hq
    have hfb : ([(p.name, (p, ts))] : List (String × Provider × List Tool)).filter
        (fun p' => ¬ p'.1 == p.name) = [] := by
      rw [List.filter_eq_nil_iff]
      intro q hq
      simp only [List.mem_singleton] at hq
      rw [hq]
      simp
    rw [hfa, hfb, List.append_nil]
  have hr2emb : (remove_provider_core (save_provider_with_tools s p ts
        out) p.name).tool_embeddings
      = eraseFold (save_provider_with_tools s p ts
          out).tool_embeddings ts := by
    show eraseFold _ (providerTools (save_provider_with_tools s p ts
      out) p.name) = _
    rw [hOldT2]
  have hr2tags : (remove_provider_core (save_provider_with_tools s p ts
        out) p.name).all_tags
      = rebuildTags (remove_provider_core (save_provider_with_tools s p ts
        out) p.name).tools := rfl
  refine ⟨?_, ?_, ?_, ?_⟩
  · rw [save_tools, hrip2, hr2tools, ← hs1tools]
  · rw [save_tpp, hrip2, hr2tpp, ← hs1tpp]
  · intro k
    rw [save_emb_out, hrip2, hr2emb, hs1emb,
      dlookup_embOutFold, dlookup_embOutFold]
    cases hlast : lastStored k ts out with
    | some v => rfl
    | none =>
        dsimp only
        rw [dlookup_eraseFold]
        by_cases hk : k ∈ namesOf ts
        · rw [if_pos hk]
          exact (hE k hk).symm
        · rw [if_neg hk, dlookup_embOutFold, hlast]
  · rw [save_tags_out, hrip2, hr2tags, hr2tools, hs1tags, hT]

theorem c6_witness :
    ((∀ t ∈ emptyRepo.tools,
        t.name ∈ namesOf [(⟨"a.x", "d", ["m"]⟩ : Tool)] →
          t ∈ providerTools emptyRepo "a")
      ∧ (∀ kv ∈ emptyRepo.tool_embeddings, kv.1 ∈ namesOf emptyRepo.tools)
      ∧ emptyRepo.all_tags = rebuildTags emptyRepo.tools)
    ∧ ((save_provider_with_tools
        (save_provider_with_tools emptyRepo ⟨"a"⟩ [⟨"a.x", "d", ["m"]⟩]
          (EmbedOutcome.fallback [some [1]]))
        ⟨"a"⟩ [⟨"a.x", "d", ["m"]⟩] (EmbedOutcome.fallback [some [1]])).tools
      = (save_provider_with_tools emptyRepo ⟨"a"⟩ [⟨"a.x", "d", ["m"]⟩]
          (EmbedOutcome.fallback [some [1]])).tools
    ∧ (save_provider_with_tools
        (save_provider_with_tools emptyRepo ⟨"a"⟩ [⟨"a.x", "d", ["m"]⟩]
          (EmbedOutcome.fallback [some [1]]))
        ⟨"a"⟩ [⟨"a.x", "d", ["m"]⟩]
          (EmbedOutcome.fallback [some [1]])).tool_per_provider
      = (save_provider_with_tools emptyRepo ⟨"a"⟩ [⟨"a.x", "d", ["m"]⟩]
          (EmbedOutcome.fallback [some [1]])).tool_per_provider
    ∧ (∀ k : String,
        dlookup (save_provider_with_tools
          (save_provider_with_tools emptyRepo ⟨"a"⟩ [⟨"a.x", "d", ["m"]⟩]
            (EmbedOutcome.fallback [some [1]]))
          ⟨"a"⟩ [⟨"a.x", "d", ["m"]⟩]
            (EmbedOutcome.fallback [some [1]])).tool_embeddings k
        = dlookup (save_provider_with_tools emptyRepo ⟨"a"⟩
            [⟨"a.x", "d", ["m"]⟩]
            (EmbedOutcome.fallback [some [1]])).tool_embeddings k)
    ∧ (save_provider_with_tools
        (save_provider_with_tools emptyRepo ⟨"a"⟩ [⟨"a.x", "d", ["m"]⟩]
          (EmbedOutcome.fallback [some [1]]))
        ⟨"a"⟩ [⟨"a.x", "d", ["m"]⟩] (EmbedOutcome.fallback [some [1]])).all_tags
      = (save_provider_with_tools emptyRepo ⟨"a"⟩ [⟨"a.x", "d", ["m"]⟩]
          (EmbedOutcome.fallback [some [1]])).all_tags) :=
  ⟨⟨by decide, by decide, by decide⟩,
   c6_amended_theorem emptyRepo ⟨"a"⟩ [⟨"a.x", "d", ["m"]⟩]
     (EmbedOutcome.fallback [some [1]]) (by decide) (by decide) (by decide)⟩

/-! ## Claim C7: replaceAll -/

theorem validateAll_ok_eq : ∀ {ds vs : List PDesc},
    validateAll ds = Except.ok vs → vs = ds := by
  intro ds
  induction ds with
  | nil => intro vs h; exact (Except.ok.inj h).symm
  | cons d ds ih =>
      intro vs h
      unfold validateAll at h
      cases hpt : d.provider_type with
      | none => rw [hpt] at h; cases h
      | some pt =>
          rw [hpt] at h
          dsimp only at h
          by_cases hin : pt ∈ provider_classes
          · rw [if_pos hin] at h
            by_cases hv : d.valid = true
            · rw [if_pos hv] at h
              cases hrec : validateAll ds with
              | error e => rw [hrec] at h; cases h
              | ok vs' =>
                  rw [hrec] at h
                  simp only [Except.map] at h
                  have := Except.ok.inj h
                  rw [← this, ih hrec]
            · rw [if_neg hv] at h; cases h
          · rw [if_neg hin] at h; cases h

def c7pa : PDesc := ⟨"a", some "http", true⟩
def c7pb : PDesc := ⟨"b", some "http", true⟩

/-- C7 counterexample: the incoming list `[b, a]` is set-equal (a
permutation of) the persisted list `[a, b]`, but `replace_providers`
compares raw lists, so it does not skip: it removes and re-adds everything
and reports `changed = true`, where the claim requires "unchanged, no
collaborator calls". -/
theorem c7_counterexample :
    ([c7pb, c7pa].Perm [c7pa, c7pb])
      ∧ replace_providers ⟨[c7pa, c7pb], [c7pa, c7pb]⟩ [c7pb, c7pa]
        = (Except.ok ((⟨[c7pb, c7pa], [c7pb, c7pa]⟩ : ServerState), true),
           [Call.removeP "a", Call.removeP "b",
            Call.addP "b", Call.addP "a"]) := by
  exact ⟨by decide, by decide⟩

/-- C7 (amended): `replace_providers` first compares the incoming payload
with the persisted list as ordered lists (before any validation) — on exact
list equality it reports unchanged with no collaborator calls and no state
change, even if descriptors are invalid; otherwise it validates every
descriptor before any mutation, failing atomically with no collaborator
calls on the first invalid one; and otherwise removes every registered
provider then adds every new provider in list order and reports changed. -/
theorem c7_amended_theorem (s : ServerState) (new_providers : List PDesc) :
    (s.persisted = new_providers →
      replace_providers s new_providers = (Except.ok (s, false), []))
    ∧ (s.persisted ≠ new_providers →
        ∀ e, validateAll new_providers = Except.error e →
          replace_providers s new_providers = (Except.error e, []))
    ∧ (s.persisted ≠ new_providers →
        ∀ vs, validateAll new_providers = Except.ok vs →
          vs = new_providers ∧
          replace_providers s new_providers
            = (Except.ok ((⟨new_providers, new_providers⟩ : ServerState),
                true),
               s.registered.map (fun d => Call.removeP d.name)
                 ++ new_providers.map (fun d => Call.addP d.name))) := by
  refine ⟨?_, ?_, ?_⟩
  · intro h
    unfold replace_providers
    rw [if_pos h]
  · intro h e he
    unfold replace_providers
    rw [if_neg h, he]
  · intro h vs hv
    have hvs := validateAll_ok_eq hv
    refine ⟨hvs, ?_⟩
    unfold replace_providers
    rw [if_neg h, hv, hvs]

theorem c7_witness :
    replace_providers ⟨[c7pa], [c7pa]⟩ [c7pa]
      = (Except.ok (⟨[c7pa], [c7pa]⟩, false), []) :=
  (c7_amended_theorem ⟨[c7pa], [c7pa]⟩ [c7pa]).1 (by decide)

/-! ## Claim C9: proxy synthesis -/

/-- C8 counterexample: a genuinely new tool whose schema makes proxy
synthesis raise (duplicate visible parameter) is in the name delta but gets
no binding, so the registered set is strictly smaller than the delta. -/
theorem c8_counterexample :
    toolsToAdd [] [⟨"p.t", "", ⟨["x", "x[]"], []⟩⟩] = {"p.t"}
      ∧ add_provider_registered [] [⟨"p.t", "", ⟨["x", "x[]"], []⟩⟩] = []
      ∧ (namesOfP (add_provider_registered []
          [⟨"p.t", "", ⟨["x", "x[]"], []⟩⟩])).toFinset
        ≠ toolsToAdd [] [⟨"p.t", "", ⟨["x", "x[]"], []⟩⟩] := by
  exact ⟨by decide, by decide, by decide⟩

/-- C8 (amended): the tools registered by `add_provider` are exactly those
whose names lie in the delta `new − old` *and* whose proxy synthesis
succeeds; in particular no tool whose name was present before gets a new
binding, and when synthesis succeeds for every delta tool the registered
name set equals the delta exactly. -/
theorem c8_amended_theorem (old_tools new_tools : List PTool) :
    (∀ t ∈ add_provider_registered old_tools new_tools,
        t.name ∈ toolsToAdd old_tools new_tools
          ∧ isOkE (create_tool_proxy t) = true)
    ∧ (∀ t ∈ add_provider_registered old_tools new_tools,
        t.name ∉ namesOfP old_tools)
    ∧ ((∀ t ∈ new_tools, t.name ∈ toolsToAdd old_tools new_tools →
          isOkE (create_tool_proxy t) = true) →
        (namesOfP (add_provider_registered old_tools new_tools)).toFinset
          = toolsToAdd old_tools new_tools) := by
  have hmem : ∀ t ∈ add_provider_registered old_tools new_tools,
      t ∈ new_tools ∧ t.name ∈ toolsToAdd old_tools new_tools
        ∧ isOkE (create_tool_proxy t) = true := by
    intro t ht
    rcases List.mem_filter.1 ht with ⟨htn, hp⟩
    rw [Bool.and_eq_true] at hp
    exact ⟨htn, of_decide_eq_true hp.1, hp.2⟩
  refine ⟨?_, ?_, ?_⟩
  · intro t ht
    exact (hmem t ht).2
  · intro t ht hold
    have := (hmem t ht).2.1
    rw [toolsToAdd, Finset.mem_sdiff] at this
    exact this.2 (List.mem_toFinset.2 hold)
  · intro hall
    apply Finset.ext
    intro n
    constructor
    · intro hn
      rcases List.mem_map.1 (List.mem_toFinset.1 hn) with ⟨t, ht, hteq⟩
      rw [← hteq]
      exact (hmem t ht).2.1
    · intro hn
      have hn' := hn
      rw [toolsToAdd, Finset.mem_sdiff] at hn'
      rcases List.mem_map.1 (List.mem_toFinset.1 hn'.1) with ⟨t, ht, hteq⟩
      apply List.mem_toFinset.2
      rw [← hteq]
      apply List.mem_map_of_mem
      apply List.mem_filter.2
      refine ⟨ht, ?_⟩
      rw [Bool.and_eq_true]
      exact ⟨decide_eq_true (hteq ▸ hn), hall t ht (hteq ▸ hn)⟩

def c8good : PTool := ⟨"p.g", "", ⟨["x"], ["x"]⟩⟩

theorem c8_witness :
    (namesOfP (add_provider_registered [] [c8good])).toFinset
      = toolsToAdd [] [c8good] :=
  (c8_amended_theorem [] [c8good]).2.2 (by decide)

/-! ## Claim C2 -/

/-- The tag-cache invariant claimed of the catalog: the cache equals the
union of the tag sets of the tools currently in the flat sequence. -/
def TagInv (r : Repo) : Prop := r.all_tags = rebuildTags r.tools

/-- The catalog after a save in which the batch embedding raised and the
single tool's individual embedding also raised: the tool enters the catalog
(line 165 `self.tools.extend(tools)`), but its tag-cache update at line 160
was skipped because it sits after the failing `embed` call in the `try`. -/
def c2repo : Repo :=
  save_provider_with_tools emptyRepo ⟨"a"⟩ [⟨"a.w", "d", ["weather"]⟩]
    (EmbedOutcome.fallback [none])

/-- C2 fails on the code: after a save whose per-tool embedding failed, the
tool is in the catalog with tag `weather` but the tag cache is empty, so the
cache is not the union of the present tools' tag sets. -/
theorem c2_bug_evaluation :
    c2repo.tools = [⟨"a.w", "d", ["weather"]⟩]
      ∧ c2repo.all_tags = ∅
      ∧ rebuildTags c2repo.tools = {"weather"}
      ∧ ¬ TagInv c2repo := by
  refine ⟨by decide, by decide, by decide, fun h => ?_⟩
  have : (∅ : Finset String) = {"weather"} := h
  exact absurd this (by decide)
